import Mathlib

/-!
Verification development for the chat-widget rendering pipeline of `src/app.js`:
the Markdown table parser (`parseMarkdownTables`), the Markdown transformer
(`markdownToHTML`), the allow-list HTML sanitizer (`sanitizeHTML`), the
user-text escaper (`escapeHTML`) and the reply adapter (`processReplyContent`).

Strings are embedded as `List Char`; each JavaScript regex pass is embedded as
a dedicated scanner with the exact matching semantics of that regex.  The
browser facilities the source relies on (DOM parsing/serialisation for
`innerHTML`, `textContent`) are not part of the repository's own code and are
modelled from the spec, as documented on the corresponding definitions.
-/

namespace App

set_option maxRecDepth 8000

abbrev Str := List Char

/-- Character class of the JavaScript `\s` regex class / `String.prototype.trim`
(ASCII whitespace plus the common Unicode space characters). -/
def jsWS (c : Char) : Bool :=
  c = ' ' || c = '\t' || c = '\n' || c = '\r' || c = '\x0b' || c = '\x0c' ||
  c = '\u00A0' || c = '\u1680' || c = '\u2000' || c = '\u2001' || c = '\u2002' ||
  c = '\u2003' || c = '\u2004' || c = '\u2005' || c = '\u2006' || c = '\u2007' ||
  c = '\u2008' || c = '\u2009' || c = '\u200A' || c = '\u2028' || c = '\u2029' ||
  c = '\u202F' || c = '\u205F' || c = '\u3000' || c = '\uFEFF'

/-- Drop leading JS whitespace. -/
def lstrip (s : Str) : Str := s.dropWhile jsWS

/-- Drop trailing JS whitespace. -/
def rstrip (s : Str) : Str := (s.reverse.dropWhile jsWS).reverse

/-- JavaScript `String.prototype.trim`. -/
def jsTrim (s : Str) : Str := rstrip (lstrip s)

/-- Split a character list on a separator character (like JS `split(sep)`). -/
def splitOnC (sep : Char) : Str → List Str
  | [] => [[]]
  | c :: r =>
    if c = sep then [] :: splitOnC sep r
    else
      match splitOnC sep r with
      | [] => [[c]]
      | h :: t => (c :: h) :: t

/-- `line` up to (excluding) its first newline. -/
def firstLine (s : Str) : Str := s.takeWhile (fun c => c ≠ '\n')

/-! ## Table parser (`parseMarkdownTables`, src/app.js lines 61-137) -/

/-- `parseTableRow` of src/app.js: trim the line, strip one leading and one
trailing `|` if present, split on `|`, trim each cell. -/
def parseTableRow (line : Str) : List Str :=
  let t1 := jsTrim line
  let t2 := match t1 with
            | '|' :: r => r
            | _ => t1
  let t3 := if t2.getLast? = some '|' then t2.dropLast else t2
  (splitOnC '|' t3).map jsTrim

/-- Characters of the separator-row class `[\s\-:\|]`. -/
def sepChar (c : Char) : Bool := jsWS c || c = '-' || c = ':' || c = '|'

/-- `isSeparatorRow` of src/app.js: the trimmed line matches
`/^\|?[\s\-:\|]+\|?$/` (equivalently: nonempty and every character in the
class, since the class itself contains `|`) and contains a `-`. -/
def isSeparatorRow (line : Str) : Bool :=
  let t := jsTrim line
  !t.isEmpty && t.all sepChar && t.contains '-'

/-- Alignment of one separator cell (`parseAlignment` body). -/
def alignOf (cell : Str) : Str :=
  let t := jsTrim cell
  let leftColon : Bool := match t with
                          | ':' :: _ => true
                          | _ => false
  let rightColon : Bool := t.getLast? = some ':'
  if leftColon && rightColon then "center".toList
  else if rightColon then "right".toList
  else "left".toList

/-- `parseAlignment` of src/app.js. -/
def parseAlignment (line : Str) : List Str :=
  (parseTableRow line).map alignOf

/-- The lines of a candidate block: trim the block, split on newlines, keep
lines whose trim is nonempty (`tableBlock.trim().split('\n').filter(...)`). -/
def linesOf (b : Str) : List Str :=
  (splitOnC '\n' (jsTrim b)).filter (fun l => !(jsTrim l).isEmpty)

/-- One table cell `<th style="text-align:A">c</th>\n` / `<td ...>c</td>\n`;
`tag` is `th` or `td`, alignment defaults to `left` past the separator row. -/
def cellsHtml (tag : Str) (aligns : List Str) : List Str → Nat → Str
  | [], _ => []
  | c :: rest, i =>
    '<' :: tag ++ " style=\"text-align:".toList ++ aligns.getD i "left".toList ++
      "\">".toList ++ c ++ "</".toList ++ tag ++ ">\n".toList ++
      cellsHtml tag aligns rest (i + 1)

/-- The `<tr>` rows for a run of table lines. -/
def rowsHtml (tag : Str) (aligns : List Str) : List Str → Str
  | [] => []
  | line :: rest =>
    "<tr>\n".toList ++ cellsHtml tag aligns (parseTableRow line) 0 ++
      "</tr>\n".toList ++ rowsHtml tag aligns rest

/-- The emitted table markup for an accepted block (src/app.js lines 104-135). -/
def mkTableHtml (lines : List Str) (sep : Nat) : Str :=
  let aligns := parseAlignment (lines.getD sep [])
  "\n<table class=\"markdown-table\">\n<thead>\n".toList ++
    rowsHtml "th".toList aligns (lines.take sep) ++
    "</thead>\n".toList ++
    (if sep < lines.length - 1 then
      "<tbody>\n".toList ++ rowsHtml "td".toList aligns (lines.drop (sep + 1)) ++
        "</tbody>\n".toList
     else []) ++
    "</table>\n".toList

/-- Whether a candidate block is accepted as a table: at least two nonblank
lines and a separator row at a positive index. -/
def tableAccept (b : Str) : Bool :=
  let lines := linesOf b
  decide (2 ≤ lines.length) &&
    (match List.findIdx? isSeparatorRow lines with
     | some (_ + 1) => true
     | _ => false)

/-- The replacer applied to a matched block (the callback of the
`text.replace(tableRegex, ...)` call): rejected blocks are returned verbatim. -/
def processBlock (b : Str) : Str :=
  let lines := linesOf b
  if lines.length < 2 then b
  else
    match List.findIdx? isSeparatorRow lines with
    | none => b
    | some 0 => b
    | some sep => mkTableHtml lines sep

/-- One iteration of the block group `\|[^\n]+\|\s*\n` of `tableRegex`: a line
starting with `|` whose last non-whitespace character is a closing `|` at
index at least 2 of the line, followed by the whitespace run up to and
including its last newline (the greedy `\s*` backtracks to end on `\n`).
Returns the consumed characters and the rest. -/
def matchIter (s : Str) : Option (Str × Str) :=
  match s with
  | '|' :: r =>
    let A := r.takeWhile (fun c => c ≠ '\n')
    let A' := (A.reverse.dropWhile jsWS).reverse
    if 2 ≤ A'.length ∧ A'.getLast? = some '|' then
      let B := r.drop A.length
      let W := ((B.takeWhile jsWS).reverse.dropWhile (fun c => c ≠ '\n')).reverse
      if W.isEmpty then none
      else some ('|' :: A ++ W, B.drop W.length)
    else none
  | _ => none

/-- Greedy repetition `(\|[^\n]+\|\s*\n)+` (with fuel; each iteration consumes
at least four characters). -/
def blockIter : Nat → Str → Str × Str
  | 0, s => ([], s)
  | fuel + 1, s =>
    match matchIter s with
    | none => ([], s)
    | some (b, r) =>
      let p := blockIter fuel r
      (b ++ p.1, p.2)

/-- A candidate block at the current position: one or more iterations. -/
def blockParse (s : Str) : Option (Str × Str) :=
  match matchIter s with
  | none => none
  | some (b, r) =>
    let p := blockIter r.length r
    some (b ++ p.1, p.2)

/-- Replacement for a block matched after a newline (the consumed `\n` of
`(?:^|\n)` is re-emitted by the leading `\n` of the table markup when the
block is accepted, or kept verbatim when it is rejected). -/
def nlRepl (b : Str) : Str :=
  if tableAccept b then processBlock b else '\n' :: b

/-- Scanner for `tableRegex` matches strictly after the start of the string:
a match may begin only after a newline. -/
def tgo : Nat → Str → Str
  | 0, s => s
  | _, [] => []
  | fuel + 1, '\n' :: r =>
    match blockParse r with
    | some (b, rest) => nlRepl b ++ tgo fuel rest
    | none => '\n' :: tgo fuel r
  | fuel + 1, c :: r => c :: tgo fuel r

/-- `parseMarkdownTables` on character lists: the `(?:^|\n)` alternative also
allows a block at the very start of the string. -/
def parseMarkdownTablesL (s : Str) : Str :=
  match blockParse s with
  | some (b, r) => processBlock b ++ tgo (r.length + 1) r
  | none => tgo (s.length + 1) s

/-- `parseMarkdownTables` of src/app.js (the `typeof` guard restricts the
String-typed embedding to the empty-string case). -/
def parseMarkdownTables (s : String) : String :=
  if s = "" then "" else (parseMarkdownTablesL s.toList).asString

/-! ## Markdown transformer (`markdownToHTML`, src/app.js lines 142-209) -/

/-- Escape `&`, `<`, `>` as in the code-protection passes
(`.replace(/&/g,'&amp;').replace(/</g,'&lt;').replace(/>/g,'&gt;')`). -/
def escAmpLtGt : Str → Str
  | [] => []
  | '&' :: r => "&amp;".toList ++ escAmpLtGt r
  | '<' :: r => "&lt;".toList ++ escAmpLtGt r
  | '>' :: r => "&gt;".toList ++ escAmpLtGt r
  | c :: r => c :: escAmpLtGt r

/-- A `\w` character: ASCII alphanumeric or underscore. -/
def wordChar (c : Char) : Bool := c.isAlphanum || c = '_'

/-- Decimal numeral of a placeholder index. -/
def natStr (n : Nat) : Str := (Nat.repr n).toList

/-- Search for the closing triple backtick of a fenced block: returns the body
(before the first occurrence) and the remainder (after it). -/
def fenceClose : Nat → Str → Option (Str × Str)
  | 0, _ => none
  | _, [] => none
  | fuel + 1, c :: r =>
    if (c :: r).take 3 = "```".toList then some ([], r.drop 2)
    else
      match fenceClose fuel r with
      | none => none
      | some (body, rest) => some (c :: body, rest)

/-- The fenced-code-block protection pass
`/```(\w*)\n?([\s\S]*?)```/g`: each match is replaced by
`%%CODEBLOCK_i%%` and the escaped block is stored (in match order). -/
def codeBlockPass : Nat → List Str → Str → Str × List Str
  | 0, blocks, s => (s, blocks)
  | _, blocks, [] => ([], blocks)
  | fuel + 1, blocks, c :: r =>
    if (c :: r).take 3 = "```".toList then
      let s1 := r.drop 2
      let lang := s1.takeWhile wordChar
      let s2 := s1.drop lang.length
      let s3 := match s2 with
                | '\n' :: t => t
                | t => t
      match fenceClose s3.length s3 with
      | none =>
        let p := codeBlockPass fuel blocks r
        (c :: p.1, p.2)
      | some (body, rest) =>
        let escaped := jsTrim (escAmpLtGt body)
        let langClass := if lang.isEmpty then []
                         else " class=\"language-".toList ++ lang ++ "\"".toList
        let stored := "<pre><code".toList ++ langClass ++ ">".toList ++ escaped ++
                      "</code></pre>".toList
        let p := codeBlockPass fuel (blocks ++ [stored]) rest
        ("%%CODEBLOCK_".toList ++ natStr blocks.length ++ "%%".toList ++ p.1, p.2)
    else
      let p := codeBlockPass fuel blocks r
      (c :: p.1, p.2)

/-- The inline-code protection pass `/`([^`]+)`/g`: each span is replaced by
`%%INLINECODE_i%%` and the escaped `<code>` fragment is stored. -/
def inlineCodePass : Nat → List Str → Str → Str × List Str
  | 0, codes, s => (s, codes)
  | _, codes, [] => ([], codes)
  | fuel + 1, codes, '`' :: r =>
    let content := r.takeWhile (fun c => c ≠ '`')
    let r2 := r.drop content.length
    match r2 with
    | '`' :: rest =>
      if content.isEmpty then
        let p := inlineCodePass fuel codes r
        ('`' :: p.1, p.2)
      else
        let stored := "<code>".toList ++ escAmpLtGt content ++ "</code>".toList
        let p := inlineCodePass fuel (codes ++ [stored]) rest
        ("%%INLINECODE_".toList ++ natStr codes.length ++ "%%".toList ++ p.1, p.2)
    | _ =>
      let p := inlineCodePass fuel codes r
      ('`' :: p.1, p.2)
  | fuel + 1, codes, c :: r =>
    let p := inlineCodePass fuel codes r
    (c :: p.1, p.2)

/-- Scanner for a line-anchored (`^...$` with the `m` flag) substitution pass:
`try` is attempted at every line start, in order; on success it returns the
replacement for the matched span and the rest of the string (which begins at
the `$` position of the match, i.e. with a newline or at the end). -/
def lgo (tryM : Str → Option (Str × Str)) : Nat → Str → Str
  | 0, s => s
  | _, [] => []
  | fuel + 1, s =>
    match tryM s with
    | some (rep, rest) =>
      rep ++ (match rest with
              | '\n' :: r => '\n' :: lgo tryM fuel r
              | other => other)
    | none =>
      let pre := s.takeWhile (fun c => c ≠ '\n')
      match s.drop pre.length with
      | '\n' :: r => pre ++ '\n' :: lgo tryM fuel r
      | _ => s

/-- Trailing `[\s]*$` of a line pattern: greedily consume whitespace, then
backtrack so the match ends at the end of the string or right before a
newline.  Returns the rest on success. -/
def wsThenEol (s : Str) : Option Str :=
  let W := s.takeWhile jsWS
  let s2 := s.drop W.length
  if s2.isEmpty then some []
  else if W.contains '\n' then
    some ('\n' :: ((W.reverse.takeWhile (fun c => c ≠ '\n')).reverse ++ s2))
  else none

/-- Matcher of the horizontal-rule pass `/^[\s]*[-*_]{3,}[\s]*$/gm`. -/
def hrTry (s : Str) : Option (Str × Str) :=
  let w := s.takeWhile jsWS
  let s1 := s.drop w.length
  let d := s1.takeWhile (fun c => c = '-' || c = '*' || c = '_')
  if d.length < 3 then none
  else
    match wsThenEol (s1.drop d.length) with
    | none => none
    | some rest => some ("<hr>".toList, rest)

/-- Matcher of a heading pass `/^#..# (.+)$/gm` with `n` hash marks. -/
def hTry (n : Nat) (s : Str) : Option (Str × Str) :=
  if s.take (n + 1) = List.replicate n '#' ++ [' '] then
    let content := (s.drop (n + 1)).takeWhile (fun c => c ≠ '\n')
    if content.isEmpty then none
    else
      some ("<h".toList ++ natStr n ++ ">".toList ++ content ++
              "</h".toList ++ natStr n ++ ">".toList,
            s.drop (n + 1 + content.length))
  else none

/-- Matcher of the blockquote pass `/^> (.+)$/gm`. -/
def bqTry (s : Str) : Option (Str × Str) :=
  match s with
  | '>' :: ' ' :: t =>
    let content := t.takeWhile (fun c => c ≠ '\n')
    if content.isEmpty then none
    else some ("<blockquote>".toList ++ content ++ "</blockquote>".toList,
               t.drop content.length)
  | _ => none

/-- Separator-remnant test of the bullet callback (`/^[-:\s|]+$/.test(content)`). -/
def sepLike (content : Str) : Bool :=
  !content.isEmpty && content.all (fun c => c = '-' || c = ':' || c = '|' || jsWS c)

/-- Matcher of the unordered-list pass `/^[\s]*[-*+] ([^\n]+)$/gm`; a
separator-like content line is returned unchanged (the callback returns
`match`). -/
def bulTry (s : Str) : Option (Str × Str) :=
  let w := s.takeWhile jsWS
  match s.drop w.length with
  | m :: ' ' :: t =>
    if m = '-' || m = '*' || m = '+' then
      let content := t.takeWhile (fun c => c ≠ '\n')
      if content.isEmpty then none
      else
        let rest := t.drop content.length
        if sepLike content then some (w ++ m :: ' ' :: content, rest)
        else some ("<li>".toList ++ content ++ "</li>".toList, rest)
    else none
  | _ => none

/-- Matcher of the ordered-list pass `/^[\s]*\d+\. (.+)$/gm`. -/
def ordTry (s : Str) : Option (Str × Str) :=
  let w := s.takeWhile jsWS
  let s1 := s.drop w.length
  let ds := s1.takeWhile Char.isDigit
  if ds.isEmpty then none
  else
    match s1.drop ds.length with
    | '.' :: ' ' :: t =>
      let content := t.takeWhile (fun c => c ≠ '\n')
      if content.isEmpty then none
      else some ("<li>".toList ++ content ++ "</li>".toList, t.drop content.length)
    | _ => none

/-- One unit `<li>[^<]*<\/li>\n?` of the list-coalescing pass. -/
def liUnit (s : Str) : Option (Str × Str) :=
  if s.take 4 = "<li>".toList then
    let t := s.drop 4
    let content := t.takeWhile (fun c => c ≠ '<')
    let t2 := t.drop content.length
    if t2.take 5 = "</li>".toList then
      match t2.drop 5 with
      | '\n' :: rest => some ("<li>".toList ++ content ++ "</li>\n".toList, rest)
      | rest => some ("<li>".toList ++ content ++ "</li>".toList, rest)
    else none
  else none

/-- Greedy run of list-item units. -/
def liRun : Nat → Str → Str × Str
  | 0, s => ([], s)
  | fuel + 1, s =>
    match liUnit s with
    | none => ([], s)
    | some (u, r) =>
      let p := liRun fuel r
      (u ++ p.1, p.2)

/-- The list-coalescing pass `/(<li>[^<]*<\/li>\n?)+/g`, wrapping each maximal
run in `<ul>...</ul>`. -/
def cgo : Nat → Str → Str
  | 0, s => s
  | _, [] => []
  | fuel + 1, c :: r =>
    match liUnit (c :: r) with
    | some _ =>
      let p := liRun (c :: r).length (c :: r)
      "<ul>".toList ++ p.1 ++ "</ul>".toList ++ cgo fuel p.2
    | none => c :: cgo fuel r

/-- Search for the closing pair of a two-character emphasis delimiter: the
lazy `(.+?)` collects at least one character, contains no newline, and stops
at the earliest following delimiter pair. -/
def emClose2 (d : Char) : Str → Str → Option (Str × Str)
  | acc, x :: y :: r =>
    if x = '\n' then none
    else if x = d ∧ y = d ∧ !acc.isEmpty then some (acc, r)
    else emClose2 d (acc ++ [x]) (y :: r)
  | _, _ => none

/-- A two-character-delimiter emphasis pass such as `/\*\*(.+?)\*\*/g`,
`/__(.+?)__/g` or `/~~(.+?)~~/g`, replacing each match by
`openT ++ content ++ closeT`. -/
def ego2 (d : Char) (openT closeT : Str) : Nat → Str → Str
  | 0, s => s
  | _, [] => []
  | fuel + 1, x :: y :: r =>
    if x = d ∧ y = d then
      match emClose2 d [] r with
      | some (content, rest) => openT ++ content ++ closeT ++ ego2 d openT closeT fuel rest
      | none => x :: ego2 d openT closeT fuel (y :: r)
    else x :: ego2 d openT closeT fuel (y :: r)
  | _ + 1, [x] => [x]

/-- Search for the closing character of a one-character emphasis delimiter. -/
def emClose1 (d : Char) : Str → Str → Option (Str × Str)
  | acc, x :: r =>
    if x = '\n' then none
    else if x = d ∧ !acc.isEmpty then some (acc, r)
    else emClose1 d (acc ++ [x]) r
  | _, [] => none

/-- A one-character-delimiter emphasis pass such as `/\*(.+?)\*/g` or
`/_(.+?)_/g`. -/
def ego1 (d : Char) (openT closeT : Str) : Nat → Str → Str
  | 0, s => s
  | _, [] => []
  | fuel + 1, x :: r =>
    if x = d then
      match emClose1 d [] r with
      | some (content, rest) => openT ++ content ++ closeT ++ ego1 d openT closeT fuel rest
      | none => x :: ego1 d openT closeT fuel r
    else x :: ego1 d openT closeT fuel r

/-- The image pass `/!\[([^\]]*)\]\(([^)]+)\)/g`. -/
def imgPass : Nat → Str → Str
  | 0, s => s
  | _, [] => []
  | fuel + 1, '!' :: '[' :: r =>
    let alt := r.takeWhile (fun c => c ≠ ']')
    (match r.drop alt.length with
     | ']' :: '(' :: r2 =>
       let url := r2.takeWhile (fun c => c ≠ ')')
       (match r2.drop url.length with
        | ')' :: rest =>
          if url.isEmpty then '!' :: imgPass fuel ('[' :: r)
          else
            "<img src=\"".toList ++ url ++ "\" alt=\"".toList ++ alt ++
              "\" style=\"max-width:100%;\">".toList ++ imgPass fuel rest
        | _ => '!' :: imgPass fuel ('[' :: r))
     | _ => '!' :: imgPass fuel ('[' :: r))
  | fuel + 1, c :: r => c :: imgPass fuel r

/-- The link pass `/\[([^\]]+)\]\(([^)]+)\)/g`. -/
def linkPass : Nat → Str → Str
  | 0, s => s
  | _, [] => []
  | fuel + 1, '[' :: r =>
    let txt := r.takeWhile (fun c => c ≠ ']')
    (match r.drop txt.length with
     | ']' :: '(' :: r2 =>
       let url := r2.takeWhile (fun c => c ≠ ')')
       (match r2.drop url.length with
        | ')' :: rest =>
          if txt.isEmpty ∨ url.isEmpty then '[' :: linkPass fuel r
          else
            "<a href=\"".toList ++ url ++
              "\" target=\"_blank\" rel=\"noopener noreferrer\">".toList ++ txt ++
              "</a>".toList ++ linkPass fuel rest
        | _ => '[' :: linkPass fuel r)
     | _ => '[' :: linkPass fuel r)
  | fuel + 1, c :: r => c :: linkPass fuel r

/-- Global literal substitution (a `replace(/pat/g, rep)` with a pattern of
plain characters): leftmost, non-overlapping. -/
def replaceAllSub (pat rep : Str) : Nat → Str → Str
  | 0, s => s
  | _, [] => []
  | fuel + 1, c :: r =>
    if pat.isPrefixOf (c :: r) ∧ !pat.isEmpty then
      rep ++ replaceAllSub pat rep fuel ((c :: r).drop pat.length)
    else c :: replaceAllSub pat rep fuel r

/-- First-occurrence literal substitution (JS `replace` with a string
pattern), used by the placeholder-restoration loops. -/
def replaceFirstSub (pat rep : Str) : Nat → Str → Str
  | 0, s => s
  | _, [] => []
  | fuel + 1, c :: r =>
    if pat.isPrefixOf (c :: r) ∧ !pat.isEmpty then
      rep ++ (c :: r).drop pat.length
    else c :: replaceFirstSub pat rep fuel r

/-- The soft-break pass `/([^>\n])\n([^<\n])/g → '$1<br>\n$2'` (all three
characters of a match are consumed, so overlapping newlines alternate). -/
def lbPass : Nat → Str → Str
  | 0, s => s
  | _, [] => []
  | fuel + 1, a :: '\n' :: b :: r =>
    if a ≠ '>' ∧ a ≠ '\n' ∧ b ≠ '<' ∧ b ≠ '\n' then
      a :: "<br>\n".toList ++ b :: lbPass fuel r
    else a :: lbPass fuel ('\n' :: b :: r)
  | fuel + 1, c :: r => c :: lbPass fuel r

/-- The restoration loop `list.forEach((code, i) => html = html.replace(tok, code))`. -/
def restorePass (tokenStem : Str) (frags : List Str) (start : Nat) (s : Str) : Str :=
  match frags with
  | [] => s
  | f :: rest =>
    let tok := "%%".toList ++ tokenStem ++ "_".toList ++ natStr start ++ "%%".toList
    restorePass tokenStem rest (start + 1) (replaceFirstSub tok f s.length s)

/-- The unordered-list pass as applied by the pipeline. -/
def bulletPass (s : Str) : Str := lgo bulTry s.length s

/-- The ordered-list pass as applied by the pipeline. -/
def orderedPass (s : Str) : Str := lgo ordTry s.length s

/-- The list-coalescing pass as applied by the pipeline. -/
def coalescePass (s : Str) : Str := cgo s.length s

/-- `markdownToHTML` of src/app.js on character lists: the ordered pipeline of
protection, table, block, inline, line-break and restoration passes. -/
def markdownToHTMLL (s : Str) : Str :=
  let p1 := codeBlockPass s.length [] s
  let codeBlocks := p1.2
  let p2 := inlineCodePass p1.1.length [] p1.1
  let inlineCodes := p2.2
  let h0 := parseMarkdownTablesL p2.1
  let h1 := lgo hrTry h0.length h0
  let h2 := lgo (hTry 6) h1.length h1
  let h3 := lgo (hTry 5) h2.length h2
  let h4 := lgo (hTry 4) h3.length h3
  let h5 := lgo (hTry 3) h4.length h4
  let h6 := lgo (hTry 2) h5.length h5
  let h7 := lgo (hTry 1) h6.length h6
  let h8 := lgo bqTry h7.length h7
  let h9 := replaceAllSub "</blockquote>\n<blockquote>".toList "\n".toList h8.length h8
  let h10 := bulletPass h9
  let h11 := orderedPass h10
  let h12 := coalescePass h11
  let h13 := imgPass h12.length h12
  let h14 := linkPass h13.length h13
  let h15 := ego2 '*' "<strong>".toList "</strong>".toList h14.length h14
  let h16 := ego2 '_' "<strong>".toList "</strong>".toList h15.length h15
  let h17 := ego1 '*' "<em>".toList "</em>".toList h16.length h16
  let h18 := ego1 '_' "<em>".toList "</em>".toList h17.length h17
  let h19 := ego2 '~' "<del>".toList "</del>".toList h18.length h18
  let h20 := replaceAllSub "  \n".toList "<br>\n".toList h19.length h19
  let h21 := lbPass h20.length h20
  let h22 := restorePass "INLINECODE".toList inlineCodes 0 h21
  restorePass "CODEBLOCK".toList codeBlocks 0 h22

/-- `markdownToHTML` of src/app.js (the `!markdown || typeof` guard restricts
the String-typed embedding to the empty-string case). -/
def markdownToHTML (s : String) : String :=
  if s = "" then "" else (markdownToHTMLL s.toList).asString

/-! ## HTML sanitizer (`sanitizeHTML`, src/app.js lines 214-255)

The sanitizer operates on the DOM fragment the browser builds for
`temp.innerHTML = html`.  The DOM itself is not code of the repository;
following the spec (§4.3: a DOM-like tree built by parsing `html` into a
detached fragment, traversed over element nodes, serialised back), it is
modelled here by `HNode`/`HForest`, `parseGo` (parsing), and `serF`
(serialisation).  `cleanNode` is translated from the source. -/

mutual
inductive HNode where
  | htext (s : Str) : HNode
  | helem (tag : Str) (attrs : List (Str × Str)) (children : HForest) : HNode

inductive HForest where
  | fnil : HForest
  | fcons (n : HNode) (f : HForest) : HForest
end

/-- The HTML void elements (serialised without end tag, parsed childless). -/
def voidTags : List Str :=
  ["area", "base", "br", "col", "embed", "hr", "img", "input", "link",
   "meta", "param", "source", "track", "wbr"].map String.toList

/-- Whether a tag is a void element. -/
def isVoid (t : Str) : Bool := voidTags.contains t

/-- Modelled from the spec: text-node serialisation for `innerHTML` reads
(escapes `&`, `<`, `>` and the no-break space). -/
def escapeText : Str → Str
  | [] => []
  | c :: r =>
    if c = '&' then "&amp;".toList ++ escapeText r
    else if c = '<' then "&lt;".toList ++ escapeText r
    else if c = '>' then "&gt;".toList ++ escapeText r
    else if c = '\u00A0' then "&nbsp;".toList ++ escapeText r
    else c :: escapeText r

/-- Modelled from the spec: attribute-value serialisation for `innerHTML`
reads (escapes `&`, `"` and the no-break space). -/
def escapeAttr : Str → Str
  | [] => []
  | c :: r =>
    if c = '&' then "&amp;".toList ++ escapeAttr r
    else if c = '"' then "&quot;".toList ++ escapeAttr r
    else if c = '\u00A0' then "&nbsp;".toList ++ escapeAttr r
    else c :: escapeAttr r

/-- Modelled from the spec: character-reference decoding used by the parser
(the references the serialiser produces, decoded leftmost-first). -/
def unescape : Str → Str
  | [] => []
  | '&' :: 'a' :: 'm' :: 'p' :: ';' :: r => '&' :: unescape r
  | '&' :: 'l' :: 't' :: ';' :: r => '<' :: unescape r
  | '&' :: 'g' :: 't' :: ';' :: r => '>' :: unescape r
  | '&' :: 'q' :: 'u' :: 'o' :: 't' :: ';' :: r => '"' :: unescape r
  | '&' :: 'n' :: 'b' :: 's' :: 'p' :: ';' :: r => '\u00A0' :: unescape r
  | c :: r => c :: unescape r

/-- Serialisation of an attribute list (` name="value"` for each attribute). -/
def serAttrs : List (Str × Str) → Str
  | [] => []
  | (n, v) :: rest =>
    ' ' :: n ++ "=\"".toList ++ escapeAttr v ++ "\"".toList ++ serAttrs rest

mutual
/-- Modelled from the spec: `innerHTML` serialisation of one node. -/
def serN : HNode → Str
  | .htext s => escapeText s
  | .helem t a c =>
    '<' :: t ++ serAttrs a ++ ">".toList ++
      (if isVoid t then [] else serF c ++ "</".toList ++ t ++ ">".toList)

/-- Modelled from the spec: `innerHTML` serialisation of a forest. -/
def serF : HForest → Str
  | .fnil => []
  | .fcons n f => serN n ++ serF f
end

mutual
/-- DOM `textContent` of a node: the concatenated descendant text. -/
def textContentN : HNode → Str
  | .htext s => s
  | .helem _ _ c => textContentF c

/-- DOM `textContent` of a forest. -/
def textContentF : HForest → Str
  | .fnil => []
  | .fcons n f => textContentN n ++ textContentF f
end

/-- ASCII lower-casing of one character (JS `toLowerCase` on the inputs that
occur here). -/
def lowerC (c : Char) : Char :=
  if 'A' ≤ c ∧ c ≤ 'Z' then Char.ofNat (c.toNat + 32) else c

/-- ASCII lower-casing of a string. -/
def lowerS (s : Str) : Str := s.map lowerC

/-- `allowedTags` of src/app.js. -/
def allowedTags : List Str :=
  ["b", "i", "u", "strong", "em", "del", "br", "p", "div", "span",
   "ul", "ol", "li", "a", "h1", "h2", "h3", "h4", "h5", "h6",
   "table", "thead", "tbody", "tr", "td", "th",
   "blockquote", "code", "pre", "hr", "img"].map String.toList

/-- `allowedAttributes` of src/app.js.  The source defines this table but
`cleanNode` never consults it (see `dropAttr`). -/
def allowedAttributes : List (Str × List Str) :=
  [("a".toList, ["href", "target", "rel"].map String.toList),
   ("img".toList, ["src", "alt", "style", "width", "height"].map String.toList),
   ("*".toList, ["class", "style", "colspan", "rowspan"].map String.toList)]

/-- The attribute-removal test of `cleanNode` (src/app.js line 243): an
attribute is removed iff its lower-cased name starts with `on`, or its
lower-cased value starts with `javascript:`, or it is a `src` whose value
starts with `data:` but not `data:image/`. -/
def dropAttr (name val : Str) : Bool :=
  let n := lowerS name
  let v := lowerS val
  "on".toList.isPrefixOf n || "javascript:".toList.isPrefixOf v ||
    (n = "src".toList ∧ "data:".toList.isPrefixOf v ∧
      !("data:image/".toList.isPrefixOf v))

mutual
/-- `cleanNode` of src/app.js, on one child: a disallowed element is replaced
by a text node holding its `textContent`; an allowed element keeps the
attributes `dropAttr` does not remove and is cleaned recursively. -/
def cleanN : HNode → HNode
  | .htext s => .htext s
  | .helem t a c =>
    if allowedTags.contains (lowerS t) then
      .helem t (a.filter (fun p => !dropAttr p.1 p.2)) (cleanF c)
    else .htext (textContentF c)

/-- `cleanNode` of src/app.js over the child list. -/
def cleanF : HForest → HForest
  | .fnil => .fnil
  | .fcons n f => .fcons (cleanN n) (cleanF f)
end

/-- ASCII letter. -/
def alphaC (c : Char) : Bool := ('a' ≤ c ∧ c ≤ 'z') || ('A' ≤ c ∧ c ≤ 'Z')

/-- Tag-name character of the modelled parser. -/
def tagC (c : Char) : Bool := alphaC c || c.isDigit

/-- Attribute-name character of the modelled parser. -/
def attrNameC (c : Char) : Bool :=
  !jsWS c && c ≠ '/' && c ≠ '>' && c ≠ '=' && c ≠ '"' && c ≠ '\''

/-- A tag token produced by the modelled parser. -/
inductive TagTok where
  | topen (t : Str) (a : List (Str × Str)) : TagTok
  | tclose (t : Str) : TagTok

/-- Modelled from the spec: attribute parsing inside an open tag, up to the
closing `>` (a stray `/` is skipped; names are lower-cased; quoted and
unquoted values are decoded with `unescape`). -/
def parseAttrsStep (recur : Str → Option (List (Str × Str) × Str))
    (s : Str) : Option (List (Str × Str) × Str) :=
  match s.dropWhile jsWS with
  | [] => none
  | c :: r =>
    if c = '>' then some ([], r)
    else if c = '/' then recur r
    else
      let nm := (c :: r).takeWhile attrNameC
      if nm.isEmpty then none
      else
        let s2 := (c :: r).drop nm.length
        match s2.dropWhile jsWS with
        | [] => recur s2
        | d :: s3 =>
          if d = '=' then
            match s3.dropWhile jsWS with
            | [] =>
              (match recur [] with
               | some (as, r3) => some ((lowerS nm, []) :: as, r3)
               | none => none)
            | e :: v0 =>
              if e = '"' then
                let v := v0.takeWhile (fun x => x ≠ '"')
                match v0.drop v.length with
                | '"' :: r2 =>
                  (match recur r2 with
                   | some (as, r3) => some ((lowerS nm, unescape v) :: as, r3)
                   | none => none)
                | _ => none
              else if e = '\'' then
                let v := v0.takeWhile (fun x => x ≠ '\'')
                match v0.drop v.length with
                | '\'' :: r2 =>
                  (match recur r2 with
                   | some (as, r3) => some ((lowerS nm, unescape v) :: as, r3)
                   | none => none)
                | _ => none
              else
                let v := (e :: v0).takeWhile (fun x => !jsWS x && x ≠ '>')
                (match recur ((e :: v0).drop v.length) with
                 | some (as, r3) => some ((lowerS nm, unescape v) :: as, r3)
                 | none => none)
          else
            (match recur s2 with
             | some (as, r3) => some ((lowerS nm, []) :: as, r3)
             | none => none)

def parseAttrs : Nat → Str → Option (List (Str × Str) × Str)
  | 0, _ => none
  | fuel + 1, s => parseAttrsStep (parseAttrs fuel) s

/-- Modelled from the spec: parsing of one tag after a `<` (close tags skip
to `>`; open tags must start with a letter; on failure the `<` is literal
text). -/
def parseTag (fuel : Nat) (s : Str) : Option (TagTok × Str) :=
  match s with
  | [] => none
  | c :: r =>
    if c = '/' then
      let nm := r.takeWhile tagC
      if nm.isEmpty then none
      else
        match (r.drop nm.length).dropWhile (fun x => x ≠ '>') with
        | '>' :: r2 => some (.tclose (lowerS nm), r2)
        | _ => none
    else if alphaC c then
      let nm := (c :: r).takeWhile tagC
      match parseAttrs fuel ((c :: r).drop nm.length) with
      | some (as, r2) => some (.topen (lowerS nm) as, r2)
      | none => none
    else none

/-- Flush the pending text accumulator in front of a forest. -/
def flushText (acc : Str) (f : HForest) : HForest :=
  if acc.isEmpty then f else .fcons (.htext (unescape acc)) f

/-- Modelled from the spec: the fragment parser behind `temp.innerHTML = html`.
Text runs accumulate in `acc`; an open tag pushes (void tags stay childless);
the close tag matching `stop` returns; other close tags are ignored. -/
def parseGo : Nat → Str → Option Str → Str → HForest × Str
  | 0, acc, _, s => (flushText acc .fnil, s)
  | _, acc, _, [] => (flushText acc .fnil, [])
  | fuel + 1, acc, stop, c :: r =>
    if c = '<' then
      match parseTag fuel r with
      | none => parseGo fuel (acc ++ ['<']) stop r
      | some (.tclose t, r2) =>
        if stop = some t then (flushText acc .fnil, r2)
        else parseGo fuel acc stop r2
      | some (.topen t a, r2) =>
        if isVoid t then
          let p := parseGo fuel [] stop r2
          (flushText acc (.fcons (.helem t a .fnil) p.1), p.2)
        else
          let kids := parseGo fuel [] (some t) r2
          let sibs := parseGo fuel [] stop kids.2
          (flushText acc (.fcons (.helem t a kids.1) sibs.1), sibs.2)
    else parseGo fuel (acc ++ [c]) stop r

/-- The detached fragment for `temp.innerHTML = s`. -/
def parseHTMLL (s : Str) : HForest := (parseGo (s.length + 1) [] none s).1

/-- `sanitizeHTML` of src/app.js on character lists: parse into a fragment,
run `cleanNode`, read back `innerHTML`. -/
def sanitizeHTMLL (s : Str) : Str := serF (cleanF (parseHTMLL s))

/-- `sanitizeHTML` of src/app.js (no input guard: the function always parses
and re-serialises). -/
def sanitizeHTML (s : String) : String := (sanitizeHTMLL s.toList).asString

/-- `escapeHTML` of src/app.js.  Modelled from the spec: the function writes
the text into `div.textContent` and reads `div.innerHTML`, i.e. serialises a
single text node. -/
def escapeHTML (s : String) : String := (escapeText s.toList).asString

/-- `processReplyContent` of src/app.js. -/
def processReplyContent (s : String) : String :=
  if s = "" then "" else sanitizeHTML (markdownToHTML s)

/-- Message role (data model of §3). -/
inductive Role where
  | user : Role
  | assistant : Role

/-- The per-message dispatch of `render` (src/app.js lines 305-309): user
bubbles get `escapeHTML`, assistant bubbles get `processReplyContent`. -/
def renderBubble (role : Role) (text : String) : String :=
  match role with
  | .user => escapeHTML text
  | .assistant => processReplyContent text

/-- A JavaScript value, for the stages' non-string input behaviour. -/
inductive JSVal where
  | vstr (s : String) : JSVal
  | vnum (n : Int) : JSVal
  | vbool (b : Bool) : JSVal
  | vnull : JSVal
  | vundef : JSVal

/-- Whether a value is a string (`typeof x === 'string'`). -/
def isJSString : JSVal → Bool
  | .vstr _ => true
  | _ => false

/-- `parseMarkdownTables` on an arbitrary value: the
`!text || typeof text !== 'string'` guard returns `''` for every non-string. -/
def parseMarkdownTablesJS : JSVal → String
  | .vstr s => parseMarkdownTables s
  | _ => ""

/-- `markdownToHTML` on an arbitrary value (same guard). -/
def markdownToHTMLJS : JSVal → String
  | .vstr s => markdownToHTML s
  | _ => ""

/-- `processReplyContent` on an arbitrary value (same guard). -/
def processReplyContentJS : JSVal → String
  | .vstr s => processReplyContent s
  | _ => ""

/-- Modelled from the spec of WebIDL `DOMString` coercion for the
`innerHTML` setter: `null` becomes the empty string
(`[LegacyNullToEmptyString]`), other non-strings are stringified. -/
def domString : JSVal → String
  | .vstr s => s
  | .vnum n => toString n
  | .vbool b => if b then "true" else "false"
  | .vnull => ""
  | .vundef => "undefined"

/-- `sanitizeHTML` on an arbitrary value: the source has no guard, so the
assignment `temp.innerHTML = html` coerces the value. -/
def sanitizeHTMLJS (v : JSVal) : String := sanitizeHTML (domString v)

/-! ## Auxiliary definitions used by the statements and proofs -/

/-- Substring test (`String.prototype.includes`). -/
def containsSub (pat : Str) : Str → Bool
  | [] => pat.isEmpty
  | c :: r => pat.isPrefixOf (c :: r) || containsSub pat r

/-- The spec's attribute policy: an attribute name is allowed on a tag iff it
is in that tag's `allowedAttributes` entry or in the `*` wildcard entry.
(`cleanNode` never consults this; see claim C2.) -/
def specAttrAllowed (tag name : Str) : Bool :=
  (match allowedAttributes.lookup tag with
   | some l => l.contains name
   | none => false) ||
  (match allowedAttributes.lookup "*".toList with
   | some l => l.contains name
   | none => false)

mutual
/-- Whether a node is or contains an element. -/
def hasElemN : HNode → Bool
  | .htext _ => false
  | .helem _ _ _ => true

/-- Whether a forest contains an element node. -/
def hasElemF : HForest → Bool
  | .fnil => false
  | .fcons n f => hasElemN n || hasElemF f
end

/-- Merge a text in front of a forest, coalescing with a leading text node
(empty text disappears). -/
def textCons (s : Str) (f : HForest) : HForest :=
  if s.isEmpty then f
  else
    match f with
    | .fcons (.htext s2) f2 => .fcons (.htext (s ++ s2)) f2
    | _ => .fcons (.htext s) f

mutual
/-- Normal form of a node: children normalised. -/
def normN : HNode → HNode
  | .htext s => .htext s
  | .helem t a c => .helem t a (normF c)

/-- Normal form of a forest: adjacent text nodes merged, empty text nodes
dropped, children normalised (what re-parsing a serialisation produces). -/
def normF : HForest → HForest
  | .fnil => .fnil
  | .fcons (.htext s) f => textCons s (normF f)
  | .fcons (.helem t a c) f => .fcons (.helem t a (normF c)) (normF f)
end

/-- Lower-case tag-name character. -/
def lcTagC (c : Char) : Bool := ('a' ≤ c ∧ c ≤ 'z') || c.isDigit

/-- Lower-case attribute-name character. -/
def lcAttrC (c : Char) : Bool := attrNameC c && !('A' ≤ c ∧ c ≤ 'Z')

/-- Well-formed tag name: lower-case letter first, then lower-case letters
and digits (the shape the modelled parser produces). -/
def wfName : Str → Bool
  | [] => false
  | c :: r => decide ('a' ≤ c ∧ c ≤ 'z') && (c :: r).all lcTagC

/-- Well-formed attribute: nonempty lower-case name (any value). -/
def wfAttr (p : Str × Str) : Bool := !p.1.isEmpty && p.1.all lcAttrC

/-- Whether a forest is empty. -/
def isNilF : HForest → Bool
  | .fnil => true
  | _ => false

mutual
/-- Well-formed node: parser-producible shape (lower-case names, void tags
childless). -/
def wfN : HNode → Bool
  | .htext _ => true
  | .helem t a c =>
    wfName t && a.all wfAttr && (!isVoid t || isNilF c) && wfF c

/-- Well-formed forest. -/
def wfF : HForest → Bool
  | .fnil => true
  | .fcons n f => wfN n && wfF f
end

/-- No newline of the string is immediately followed by a `|` (within the
string); used to walk emitted table markup without re-matching a block. -/
def nlSafe : Str → Bool
  | [] => true
  | '\n' :: c :: r => decide (c ≠ '|') && nlSafe (c :: r)
  | _ :: r => nlSafe r

/-- How a forest's serialisation may be terminated inside a larger document:
by the end of the input, or by the closing tag the surrounding element is
waiting for.  The third argument is the input remaining after the stop. -/
inductive StopsAt : Option Str → Str → Str → Prop where
  | snil (stop : Option Str) : StopsAt stop [] []
  | sclose (t r' : Str) (hw : wfName t = true) :
      StopsAt (some t) ('<' :: '/' :: (t ++ '>' :: r')) r'

/-! ## Claim theorems -/

/-- C7: on the three-line input `| A | B |` / `|---|---|` / `| 1 | 2 |` the
transformer produces a table whose header cells are `A` and `B`, both
left-aligned, and exactly one body row with cells `1` and `2`: the emitted
markup has exactly the two `th` cells with `text-align:left`, one `tbody`
row with the two `td` cells, and the row/alignment parser yields the stated
cells. -/
theorem C7_table_concrete :
    parseMarkdownTables "| A | B |\n|---|---|\n| 1 | 2 |\n" =
      "\n<table class=\"markdown-table\">\n<thead>\n<tr>\n<th style=\"text-align:left\">A</th>\n<th style=\"text-align:left\">B</th>\n</tr>\n</thead>\n<tbody>\n<tr>\n<td style=\"text-align:left\">1</td>\n<td style=\"text-align:left\">2</td>\n</tr>\n</tbody>\n</table>\n" ∧
    parseTableRow "| A | B |".toList = ["A".toList, "B".toList] ∧
    parseAlignment "|---|---|".toList = ["left".toList, "left".toList] ∧
    parseTableRow "| 1 | 2 |".toList = ["1".toList, "2".toList] := by
  refine ⟨?_, ?_, ?_, ?_⟩ <;> decide

/-- C2: the attribute allow-list is not enforced.  `cleanNode` only strips
`on*`/`javascript:`/non-image `data:` attributes, so the `id` attribute —
which is in neither the per-tag sets nor the wildcard set of
`allowedAttributes` (`specAttrAllowed`) — survives sanitisation, contradicting
the claim that attributes outside those sets are removed. -/
theorem C2_attribute_allowlist_not_enforced :
    sanitizeHTML "<div id=\"x\">hi</div>" = "<div id=\"x\">hi</div>" ∧
    specAttrAllowed "div".toList "id".toList = false ∧
    dropAttr "id".toList "x".toList = false := by
  refine ⟨?_, ?_, ?_⟩ <;> decide

/-- C4: the italic rule fires across code placeholders.  On the input
`` `a` _b_ `` the inline-code span is protected as `%%INLINECODE_0%%`, but the
`_(.+?)_` pass then matches from the underscore inside the placeholder to the
underscore of `_b_`, corrupting the token: the protected `<code>a</code>`
fragment is never restored and the placeholder text leaks into the output. -/
theorem C4_emphasis_fires_across_placeholder :
    markdownToHTML "`a` _b_" = "%%INLINECODE<em>0%% </em>b_" ∧
    containsSub "<code>".toList (markdownToHTML "`a` _b_").toList = false ∧
    containsSub "%%INLINECODE_0%%".toList (markdownToHTML "`a` _b_").toList = false := by
  refine ⟨?_, ?_, ?_⟩ <;> decide

/-- C5 (counterexample): `sanitizeHTML` has no input guard, so a non-string
input is coerced by the `innerHTML` assignment and yields its string
rendering, not the empty string: `sanitizeHTML(3)` evaluates to `"3"`. -/
theorem C5_sanitize_nonstring_counterexample :
    isJSString (JSVal.vnum 3) = false ∧
    sanitizeHTMLJS (JSVal.vnum 3) = "3" ∧
    sanitizeHTMLJS (JSVal.vnum 3) ≠ "" := by
  refine ⟨rfl, ?_, ?_⟩ <;> decide

/-- C5 (amended): the three guarded stages (`parseMarkdownTables`,
`markdownToHTML`, `processReplyContent`) yield the empty string on every
non-string input and on the empty string; `sanitizeHTML` yields the empty
string on the empty string and on `null`, but coerces other non-strings. -/
theorem C5_guarded_stages_empty (v : JSVal) (h : isJSString v = false) :
    parseMarkdownTablesJS v = "" ∧ markdownToHTMLJS v = "" ∧
    processReplyContentJS v = "" ∧
    parseMarkdownTables "" = "" ∧ markdownToHTML "" = "" ∧
    processReplyContent "" = "" ∧ sanitizeHTML "" = "" ∧
    sanitizeHTMLJS JSVal.vnull = "" := by
  cases v <;>
    simp_all [parseMarkdownTablesJS, markdownToHTMLJS, processReplyContentJS,
      isJSString, parseMarkdownTables, markdownToHTML, processReplyContent] <;>
    decide

/-- C5 (witness for the amended theorem): instantiated at `undefined`. -/
theorem C5_guarded_stages_empty_witness :
    isJSString JSVal.vundef = false ∧
    (parseMarkdownTablesJS JSVal.vundef = "" ∧ markdownToHTMLJS JSVal.vundef = "" ∧
     processReplyContentJS JSVal.vundef = "" ∧
     parseMarkdownTables "" = "" ∧ markdownToHTML "" = "" ∧
     processReplyContent "" = "" ∧ sanitizeHTML "" = "" ∧
     sanitizeHTMLJS JSVal.vnull = "") :=
  ⟨by decide, C5_guarded_stages_empty JSVal.vundef (by decide)⟩

/-- C6: a candidate block with no separator row, or whose first
separator-looking row is the block's first line, is returned unmodified by
the replacer (and the after-newline replacement keeps it verbatim): no table
is emitted. -/
theorem C6_separator_guard (b : Str)
    (h : List.findIdx? isSeparatorRow (linesOf b) = none ∨
         List.findIdx? isSeparatorRow (linesOf b) = some 0) :
    processBlock b = b ∧ nlRepl b = '\n' :: b := by
  have hacc : tableAccept b = false := by
    unfold tableAccept
    rcases h with h | h <;> simp [h]
  have hpb : processBlock b = b := by
    unfold processBlock
    rcases h with h | h <;>
      by_cases hl : (linesOf b).length < 2 <;> simp [h, hl]
  exact ⟨hpb, by unfold nlRepl; simp [hacc, hpb]⟩

/-- C6 (witness): the block `|---|` / `|1|` has its separator-looking row at
index 0 and passes through unchanged. -/
theorem C6_separator_guard_witness :
    List.findIdx? isSeparatorRow (linesOf "|---|\n|1|\n".toList) = some 0 ∧
    (processBlock "|---|\n|1|\n".toList = "|---|\n|1|\n".toList ∧
     nlRepl "|---|\n|1|\n".toList = '\n' :: "|---|\n|1|\n".toList) :=
  ⟨by decide, C6_separator_guard _ (Or.inr (by decide))⟩

/-- C10 (counterexample): `markdownToHTML` passes raw HTML through, so the
output of the literal input `<ol>` does contain an `<ol>`; read as "the
output never contains an `<ol>` element", the claim fails. -/
theorem C10_ol_passthrough_counterexample :
    markdownToHTML "<ol>" = "<ol>" ∧
    containsSub "<ol>".toList (markdownToHTML "<ol>").toList = true := by
  constructor <;> decide

/-- C8 (counterexample): a list item produced from the bullet line `- a<b`
contains `<` in its content, so the coalescing regex `(<li>[^<]*<\/li>\n?)+`
cannot match it and the run is left without any `<ul>` wrapper. -/
theorem C8_unwrapped_li_counterexample :
    markdownToHTML "- a<b" = "<li>a<b</li>" ∧
    containsSub "<ul>".toList (markdownToHTML "- a<b").toList = false ∧
    containsSub "<li>".toList (markdownToHTML "- a<b").toList = true := by
  refine ⟨?_, ?_, ?_⟩ <;> decide

/-! ## Helper lemmas -/

theorem takeWhile_eq_self {α : Type} {p : α → Bool} {l : List α}
    (h : ∀ x ∈ l, p x = true) : l.takeWhile p = l := by
  induction l with
  | nil => rfl
  | cons x r ih =>
    simp only [List.takeWhile_cons, h x (by simp)]
    simp [ih (fun y hy => h y (by simp [hy]))]

theorem takeWhile_append_eq {α : Type} {p : α → Bool} {l r : List α}
    (h : ∀ x ∈ l, p x = true) (h2 : r.takeWhile p = []) :
    (l ++ r).takeWhile p = l := by
  rw [List.takeWhile_append]
  simp [takeWhile_eq_self h, h2]

theorem takeWhile_nil_of_head {α : Type} {p : α → Bool} {x : α} {r : List α}
    (h : p x = false) : (x :: r).takeWhile p = [] := by
  simp [List.takeWhile_cons, h]

theorem containsSub_append_of_ne {p : Char} {pr X z : Str}
    (hX : ∀ ch ∈ X, ch ≠ p) :
    containsSub (p :: pr) (X ++ z) = containsSub (p :: pr) z := by
  induction X with
  | nil => rfl
  | cons x r ih =>
    have hx : x ≠ p := hX x (by simp)
    have hbe : (p == x) = false := by
      simp only [beq_eq_false_iff_ne, ne_eq]
      exact fun he => hx he.symm
    have hpre : (p :: pr).isPrefixOf (x :: (r ++ z)) = false := by
      simp [List.isPrefixOf, hbe]
    rw [List.cons_append]
    show ((p :: pr).isPrefixOf (x :: (r ++ z)) || containsSub (p :: pr) (r ++ z)) = _
    rw [hpre, Bool.false_or]
    exact ih (fun ch hc => hX ch (by simp [hc]))

theorem liUnit_li (s z : Str) (h : ∀ ch ∈ s, ch ≠ '<') :
    liUnit ("<li>".toList ++ s ++ "</li>".toList ++ z) =
      match z with
      | '\n' :: z2 => some ("<li>".toList ++ s ++ "</li>\n".toList, z2)
      | _ => some ("<li>".toList ++ s ++ "</li>".toList, z) := by
  have hs : ∀ ch ∈ s, (decide (ch ≠ '<')) = true := by
    intro ch hc; simp [h ch hc]
  unfold liUnit
  have h4 : ("<li>".toList ++ s ++ "</li>".toList ++ z).take 4 = "<li>".toList := by
    simp [List.take_append]
  have hdrop : ("<li>".toList ++ s ++ "</li>".toList ++ z).drop 4 =
      s ++ "</li>".toList ++ z := by
    simp [List.drop_append]
  rw [h4, hdrop]
  simp only [if_pos rfl]
  have htw : (s ++ "</li>".toList ++ z).takeWhile (fun c => decide (c ≠ '<')) = s := by
    rw [List.append_assoc]
    exact takeWhile_append_eq hs (by simp)
  rw [htw]
  have hdrop2 : (s ++ "</li>".toList ++ z).drop s.length = "</li>".toList ++ z := by
    rw [List.append_assoc]
    exact List.drop_left s _
  rw [hdrop2]
  have h5 : ("</li>".toList ++ z).take 5 = "</li>".toList := by
    simp [List.take_append]
  have h5d : ("</li>".toList ++ z).drop 5 = z := by
    simp [List.drop_append]
  rw [h5, h5d]
  simp only [if_pos rfl]
  cases z with
  | nil => simp
  | cons zc zr =>
    by_cases hz : zc = '\n'
    · subst hz; simp
    · simp [hz]

theorem liUnit_none_of_head {x : Char} {r : Str} (h : x ≠ '<') :
    liUnit (x :: r) = none := by
  have hne : ¬((x :: r).take 4 = "<li>".toList) := by
    rw [show (4 : Nat) = 3 + 1 from rfl, List.take_succ_cons]
    intro he
    injection he with h1 _
    exact h h1
  unfold liUnit
  rw [if_neg hne]

theorem liRun_step {fuel : Nat} {u r s : Str} (h : liUnit s = some (u, r)) :
    liRun (fuel + 1) s = ((u ++ (liRun fuel r).1, (liRun fuel r).2) : Str × Str) := by
  simp [liRun, h]

theorem liRun_none {fuel : Nat} {s : Str} (h : liUnit s = none) :
    liRun fuel s = ([], s) := by
  cases fuel <;> simp [liRun, h]

theorem cgo_copy {X : Str} (fuel : Nat) {z : Str} (hX : ∀ ch ∈ X, ch ≠ '<') :
    cgo (X.length + fuel) (X ++ z) = X ++ cgo fuel z := by
  induction X with
  | nil => simp
  | cons x r ih =>
    have hx : x ≠ '<' := hX x (by simp)
    have hnone : liUnit (x :: (r ++ z)) = none := liUnit_none_of_head hx
    show cgo (r.length + 1 + fuel) (x :: (r ++ z)) = _
    have harr : r.length + 1 + fuel = (r.length + fuel) + 1 := by omega
    rw [harr]
    simp only [cgo, hnone]
    rw [ih (fun ch hc => hX ch (by simp [hc]))]
    simp

theorem cgo_nil (fuel : Nat) : cgo fuel [] = [] := by
  cases fuel <;> rfl

theorem cgo_step {fuel : Nat} {x : Char} {t u r : Str}
    (h : liUnit (x :: t) = some (u, r)) :
    cgo (fuel + 1) (x :: t) =
      "<ul>".toList ++ (liRun (x :: t).length (x :: t)).1 ++ "</ul>".toList ++
        cgo fuel (liRun (x :: t).length (x :: t)).2 := by
  simp [cgo, h]

theorem cgo_skip {fuel : Nat} {x : Char} {t : Str} (h : liUnit (x :: t) = none) :
    cgo (fuel + 1) (x :: t) = x :: cgo fuel t := by
  simp [cgo, h]

theorem jsWS_digit_false {c : Char} (h1 : '0' ≤ c) (h2 : c ≤ '9') :
    jsWS c = false := by
  unfold jsWS
  simp only [Bool.or_eq_false_iff, decide_eq_false_iff_not]
  repeat' apply And.intro
  all_goals
    rintro rfl
  all_goals
    first
      | exact absurd h1 (by decide)
      | exact absurd h2 (by decide)

theorem lgo_single {tryM : Str → Option (Str × Str)} {s rep : Str}
    (h : tryM s = some (rep, [])) (hs : s ≠ []) :
    lgo tryM s.length s = rep := by
  cases s with
  | nil => exact absurd rfl hs
  | cons c r =>
    show lgo tryM (r.length + 1) (c :: r) = rep
    simp [lgo, h]

theorem ordTry_line (ds content : Str) (h1 : ds ≠ [])
    (h2 : ∀ ch ∈ ds, Char.isDigit ch = true)
    (h3 : content ≠ []) (h4 : ∀ ch ∈ content, ch ≠ '\n') :
    ordTry (ds ++ '.' :: ' ' :: content) =
      some ("<li>".toList ++ content ++ "</li>".toList, []) := by
  obtain ⟨d0, ds', rfl⟩ : ∃ d0 ds', ds = d0 :: ds' := by
    cases ds with
    | nil => exact absurd rfl h1
    | cons d0 ds' => exact ⟨d0, ds', rfl⟩
  have hd0 : Char.isDigit d0 = true := h2 _ (by simp)
  have hd0' : '0' ≤ d0 ∧ d0 ≤ '9' := by
    simpa [Char.isDigit, decide_eq_true_eq] using hd0
  unfold ordTry
  have hw : ((d0 :: ds') ++ '.' :: ' ' :: content).takeWhile jsWS = [] := by
    apply takeWhile_nil_of_head
    exact jsWS_digit_false hd0'.1 hd0'.2
  rw [hw]
  simp only [List.length_nil, List.drop_zero]
  have hds : ((d0 :: ds') ++ '.' :: ' ' :: content).takeWhile Char.isDigit =
      d0 :: ds' := by
    apply takeWhile_append_eq
    · exact h2
    · apply takeWhile_nil_of_head; decide
  rw [hds]
  have hempty : (d0 :: ds').isEmpty = false := by simp [List.isEmpty]
  rw [hempty]
  simp only [Bool.false_eq_true, if_false]
  rw [List.drop_left]
  have hcw : content.takeWhile (fun c => decide (c ≠ '\n')) = content := by
    apply takeWhile_eq_self
    intro x hx
    simp [h4 x hx]
  simp only [hcw]
  have hce : content.isEmpty = false := by
    cases content with
    | nil => exact absurd rfl h3
    | cons _ _ => simp [List.isEmpty]
  rw [hce]
  simp [List.drop_length]

theorem bulTry_line (content : Str) (h3 : content ≠ [])
    (h4 : ∀ ch ∈ content, ch ≠ '\n') (h5 : sepLike content = false) :
    bulTry ('-' :: ' ' :: content) =
      some ("<li>".toList ++ content ++ "</li>".toList, []) := by
  unfold bulTry
  have hw : ('-' :: ' ' :: content).takeWhile jsWS = [] := by
    apply takeWhile_nil_of_head; decide
  rw [hw]
  simp only [List.length_nil, List.drop_zero]
  have hcw : content.takeWhile (fun c => decide (c ≠ '\n')) = content := by
    apply takeWhile_eq_self
    intro x hx
    simp [h4 x hx]
  simp only [hcw]
  have hce : content.isEmpty = false := by
    cases content with
    | nil => exact absurd rfl h3
    | cons _ _ => simp [List.isEmpty]
  rw [hce]
  simp [h5, List.drop_length]

theorem cgo_step' {fuel : Nat} {s u r : Str} (hs : s ≠ []) (h : liUnit s = some (u, r)) :
    cgo (fuel + 1) s =
      "<ul>".toList ++ (liRun s.length s).1 ++ "</ul>".toList ++
        cgo fuel (liRun s.length s).2 := by
  cases s with
  | nil => exact absurd rfl hs
  | cons x t => exact cgo_step h

/-- C10 (amended): for an ordered item `N. text` whose marker `N` is a
nonempty digit run and whose text is nonempty, contains no newline and no
`<`, and is not separator-like, the ordered rule emits exactly the `<li>`
element the bullet line `- text` yields, the coalescing pass wraps it in a
`<ul>` wrapper, and the wrapped result contains no `<ol>`. -/
theorem C10_ordered_items_become_ul (ds content : Str) (h1 : ds ≠ [])
    (h2 : ∀ ch ∈ ds, Char.isDigit ch = true) (h3 : content ≠ [])
    (h4 : ∀ ch ∈ content, ch ≠ '\n') (h5 : ∀ ch ∈ content, ch ≠ '<')
    (h6 : sepLike content = false) :
    orderedPass (ds ++ '.' :: ' ' :: content) =
      "<li>".toList ++ content ++ "</li>".toList ∧
    orderedPass (ds ++ '.' :: ' ' :: content) = bulletPass ('-' :: ' ' :: content) ∧
    coalescePass ("<li>".toList ++ content ++ "</li>".toList) =
      "<ul><li>".toList ++ content ++ "</li></ul>".toList ∧
    containsSub "<ol>".toList
      ("<ul><li>".toList ++ content ++ "</li></ul>".toList) = false := by
  have hne : ds ++ '.' :: ' ' :: content ≠ [] := by cases ds <;> simp
  have hord : orderedPass (ds ++ '.' :: ' ' :: content) =
      "<li>".toList ++ content ++ "</li>".toList := by
    unfold orderedPass
    exact lgo_single (ordTry_line ds content h1 h2 h3 h4) hne
  have hbul : bulletPass ('-' :: ' ' :: content) =
      "<li>".toList ++ content ++ "</li>".toList := by
    unfold bulletPass
    exact lgo_single (bulTry_line content h3 h4 h6) (by simp)
  have hli : liUnit ("<li>".toList ++ content ++ "</li>".toList) =
      some ("<li>".toList ++ content ++ "</li>".toList, []) := by
    have h := liUnit_li content [] h5
    rw [List.append_nil] at h
    simpa using h
  have hlen : ("<li>".toList ++ content ++ "</li>".toList).length =
      (content.length + 8) + 1 := by
    simp [List.length_append]
  have hcoal : coalescePass ("<li>".toList ++ content ++ "</li>".toList) =
      "<ul><li>".toList ++ content ++ "</li></ul>".toList := by
    unfold coalescePass
    rw [hlen, cgo_step' (by simp) hli]
    rw [hlen, liRun_step hli, liRun_none (show liUnit [] = none from rfl)]
    rw [cgo_nil]
    simp only [List.append_assoc, List.append_nil, List.cons_append, List.nil_append]
    rfl
  refine ⟨hord, hord.trans hbul.symm, hcoal, ?_⟩
  have e1 : "<ul><li>".toList =
      '<' :: 'u' :: 'l' :: '>' :: '<' :: 'l' :: 'i' :: '>' :: [] := rfl
  have e2 : "<ol>".toList = '<' :: 'o' :: 'l' :: '>' :: [] := rfl
  rw [e1, e2]
  simp only [List.cons_append, List.nil_append]
  have hmid : containsSub ('<' :: 'o' :: 'l' :: '>' :: [])
      (content ++
        ('<' :: '/' :: 'l' :: 'i' :: '>' :: '<' :: '/' :: 'u' :: 'l' :: '>' :: [])) =
      false := by
    rw [containsSub_append_of_ne h5]
    decide
  simp [containsSub, List.isPrefixOf, hmid]

theorem liUnit_cons (s z : Str) (h : ∀ ch ∈ s, ch ≠ '<') :
    liUnit ('<' :: 'l' :: 'i' :: '>' ::
        (s ++ '<' :: '/' :: 'l' :: 'i' :: '>' :: '\n' :: z)) =
      some ('<' :: 'l' :: 'i' :: '>' ::
        (s ++ '<' :: '/' :: 'l' :: 'i' :: '>' :: '\n' :: []), z) := by
  have h2 := liUnit_li s ('\n' :: z) h
  simp only [List.append_assoc] at h2
  exact h2

/-- C8 (amended): a maximal run of consecutive `<li>` items whose contents
contain no `<` is coalesced into one `<ul>` wrapper, and a non-list segment
between two runs yields two separate wrappers (an item whose content contains
`<` escapes the wrapper, see the counterexample). -/
theorem C8_li_runs_coalesced (a b c X : Str)
    (ha : ∀ ch ∈ a, ch ≠ '<') (hb : ∀ ch ∈ b, ch ≠ '<') (hc : ∀ ch ∈ c, ch ≠ '<')
    (hX : ∀ ch ∈ X, ch ≠ '<') (hXne : X ≠ []) :
    coalescePass ("<li>".toList ++ a ++ "</li>\n".toList ++
        "<li>".toList ++ b ++ "</li>\n".toList ++ X ++
        "<li>".toList ++ c ++ "</li>\n".toList) =
      "<ul><li>".toList ++ a ++ "</li>\n<li>".toList ++ b ++
        "</li>\n</ul>".toList ++ X ++
        "<ul><li>".toList ++ c ++ "</li>\n</ul>".toList := by
  obtain ⟨x, X', rfl⟩ : ∃ x X', X = x :: X' := by
    cases X with
    | nil => exact absurd rfl hXne
    | cons x X' => exact ⟨x, X', rfl⟩
  have hx : x ≠ '<' := hX x (by simp)
  simp only [List.append_assoc]
  show cgo
      ('<' :: 'l' :: 'i' :: '>' ::
        (a ++ '<' :: '/' :: 'l' :: 'i' :: '>' :: '\n' ::
         '<' :: 'l' :: 'i' :: '>' ::
        (b ++ '<' :: '/' :: 'l' :: 'i' :: '>' :: '\n' ::
          (x :: X' ++
           '<' :: 'l' :: 'i' :: '>' ::
            (c ++ '<' :: '/' :: 'l' :: 'i' :: '>' :: '\n' :: []))))).length
      ('<' :: 'l' :: 'i' :: '>' ::
        (a ++ '<' :: '/' :: 'l' :: 'i' :: '>' :: '\n' ::
         '<' :: 'l' :: 'i' :: '>' ::
        (b ++ '<' :: '/' :: 'l' :: 'i' :: '>' :: '\n' ::
          (x :: X' ++
           '<' :: 'l' :: 'i' :: '>' ::
            (c ++ '<' :: '/' :: 'l' :: 'i' :: '>' :: '\n' :: []))))) = _
  set T2 : Str := '<' :: 'l' :: 'i' :: '>' ::
      (c ++ '<' :: '/' :: 'l' :: 'i' :: '>' :: '\n' :: []) with hT2
  set I2 : Str := x :: X' ++ T2 with hI2
  set I1 : Str := '<' :: 'l' :: 'i' :: '>' ::
      (b ++ '<' :: '/' :: 'l' :: 'i' :: '>' :: '\n' :: I2) with hI1
  set I0 : Str := '<' :: 'l' :: 'i' :: '>' ::
      (a ++ '<' :: '/' :: 'l' :: 'i' :: '>' :: '\n' :: I1) with hI0
  have f1 : liUnit I0 = some ('<' :: 'l' :: 'i' :: '>' ::
      (a ++ '<' :: '/' :: 'l' :: 'i' :: '>' :: '\n' :: []), I1) := by
    rw [hI0]; exact liUnit_cons a I1 ha
  have f2 : liUnit I1 = some ('<' :: 'l' :: 'i' :: '>' ::
      (b ++ '<' :: '/' :: 'l' :: 'i' :: '>' :: '\n' :: []), I2) := by
    rw [hI1]; exact liUnit_cons b I2 hb
  have f3 : liUnit I2 = none := by
    rw [hI2]; exact liUnit_none_of_head hx
  have f4 : liUnit T2 = some ('<' :: 'l' :: 'i' :: '>' ::
      (c ++ '<' :: '/' :: 'l' :: 'i' :: '>' :: '\n' :: []), []) := by
    rw [hT2]
    have := liUnit_cons c [] hc
    simpa using this
  have hlI0 : I0.length = a.length + b.length + X'.length + c.length + 31 := by
    simp only [hI0, hI1, hI2, hT2, List.length_cons, List.length_append, List.length_nil]
    omega
  have hlT2 : T2.length = c.length + 9 + 1 := by
    simp only [hT2, List.length_cons, List.length_append, List.length_nil]
    try omega
  obtain ⟨f, hf⟩ : ∃ f, I0.length = f + 1 := ⟨I0.length - 1, by omega⟩
  rw [hf, cgo_step' (by rw [hI0]; simp) f1]
  obtain ⟨k, hk⟩ : ∃ k, I0.length = k + 2 := ⟨I0.length - 2, by omega⟩
  rw [hk, liRun_step f1, liRun_step f2, liRun_none f3]
  obtain ⟨f2n, hf2⟩ : ∃ f2n, f = (x :: X').length + f2n := by
    refine ⟨f - (X'.length + 1), ?_⟩
    simp only [List.length_cons]
    omega
  rw [hf2, cgo_copy f2n (fun ch hc2 => hX ch hc2)]
  obtain ⟨f3n, hf3⟩ : ∃ f3n, f2n = f3n + 1 := by
    refine ⟨f2n - 1, ?_⟩
    simp only [List.length_cons] at hf2
    omega
  rw [hf3, cgo_step' (by rw [hT2]; simp) f4]
  obtain ⟨m, hm⟩ : ∃ m, T2.length = m + 1 := ⟨T2.length - 1, by omega⟩
  rw [hm, liRun_step f4, liRun_none (show liUnit [] = none from rfl), cgo_nil]
  simp only [hI2, hT2]
  simp only [List.append_assoc, List.append_nil, List.nil_append, List.cons_append]
  rfl

/-- C8 (witness for the amended theorem): instantiated at contents `x`, `y`,
`z` with the separating segment `q`. -/
theorem C8_li_runs_coalesced_witness :
    coalescePass ("<li>".toList ++ "x".toList ++ "</li>\n".toList ++
        "<li>".toList ++ "y".toList ++ "</li>\n".toList ++ "q".toList ++
        "<li>".toList ++ "z".toList ++ "</li>\n".toList) =
      "<ul><li>".toList ++ "x".toList ++ "</li>\n<li>".toList ++ "y".toList ++
        "</li>\n</ul>".toList ++ "q".toList ++
        "<ul><li>".toList ++ "z".toList ++ "</li>\n</ul>".toList :=
  C8_li_runs_coalesced "x".toList "y".toList "z".toList "q".toList
    (by decide) (by decide) (by decide) (by decide) (by decide)

/-- C10 (witness for the amended theorem): instantiated at `1. ab`. -/
theorem C10_ordered_items_become_ul_witness :
    orderedPass ("1".toList ++ '.' :: ' ' :: "ab".toList) =
      "<li>".toList ++ "ab".toList ++ "</li>".toList ∧
    orderedPass ("1".toList ++ '.' :: ' ' :: "ab".toList) =
      bulletPass ('-' :: ' ' :: "ab".toList) ∧
    coalescePass ("<li>".toList ++ "ab".toList ++ "</li>".toList) =
      "<ul><li>".toList ++ "ab".toList ++ "</li></ul>".toList ∧
    containsSub "<ol>".toList
      ("<ul><li>".toList ++ "ab".toList ++ "</li></ul>".toList) = false :=
  C10_ordered_items_become_ul "1".toList "ab".toList
    (by decide) (by decide) (by decide) (by decide) (by decide) (by decide)

set_option maxHeartbeats 2000000 in
theorem unescape_cons_ne {c : Char} {r : Str} (h : c ≠ '&') :
    unescape (c :: r) = c :: unescape r := by
  rw [unescape.eq_def]
  split <;> simp_all

theorem escapeText_amp (r : Str) :
    escapeText ('&' :: r) = '&' :: 'a' :: 'm' :: 'p' :: ';' :: escapeText r := by
  simp [escapeText]

theorem escapeText_lt (r : Str) :
    escapeText ('<' :: r) = '&' :: 'l' :: 't' :: ';' :: escapeText r := by
  simp [escapeText]

theorem escapeText_gt (r : Str) :
    escapeText ('>' :: r) = '&' :: 'g' :: 't' :: ';' :: escapeText r := by
  simp [escapeText]

theorem escapeText_nbsp (r : Str) :
    escapeText ('\u00A0' :: r) = '&' :: 'n' :: 'b' :: 's' :: 'p' :: ';' :: escapeText r := by
  simp [escapeText]

theorem escapeText_cons_ne {c : Char} {r : Str} (h1 : c ≠ '&') (h2 : c ≠ '<')
    (h3 : c ≠ '>') (h4 : c ≠ '\u00A0') :
    escapeText (c :: r) = c :: escapeText r := by
  simp [escapeText, h1, h2, h3, h4]

theorem unescape_escapeText (s : Str) : unescape (escapeText s) = s := by
  induction s with
  | nil => rfl
  | cons c r ih =>
    by_cases h1 : c = '&'
    · subst h1
      rw [escapeText_amp]
      show '&' :: unescape (escapeText r) = '&' :: r
      rw [ih]
    by_cases h2 : c = '<'
    · subst h2
      rw [escapeText_lt]
      show '<' :: unescape (escapeText r) = '<' :: r
      rw [ih]
    by_cases h3 : c = '>'
    · subst h3
      rw [escapeText_gt]
      show '>' :: unescape (escapeText r) = '>' :: r
      rw [ih]
    by_cases h4 : c = '\u00A0'
    · subst h4
      rw [escapeText_nbsp]
      show '\u00A0' :: unescape (escapeText r) = '\u00A0' :: r
      rw [ih]
    rw [escapeText_cons_ne h1 h2 h3 h4, unescape_cons_ne h1, ih]

theorem escapeText_no_lt (s : Str) : ∀ ch ∈ escapeText s, ch ≠ '<' := by
  induction s with
  | nil => simp [escapeText]
  | cons c r ih =>
    by_cases h1 : c = '&'
    · subst h1; rw [escapeText_amp]; simp_all
    by_cases h2 : c = '<'
    · subst h2; rw [escapeText_lt]; simp_all
    by_cases h3 : c = '>'
    · subst h3; rw [escapeText_gt]; simp_all
    by_cases h4 : c = '\u00A0'
    · subst h4; rw [escapeText_nbsp]; simp_all
    rw [escapeText_cons_ne h1 h2 h3 h4]
    intro ch hch
    rcases List.mem_cons.mp hch with h | h
    · subst h; exact h2
    · exact ih ch h

theorem escapeText_ne_nil {s : Str} (h : s ≠ []) : escapeText s ≠ [] := by
  cases s with
  | nil => exact absurd rfl h
  | cons c r =>
    by_cases h1 : c = '&'
    · subst h1; rw [escapeText_amp]; simp
    by_cases h2 : c = '<'
    · subst h2; rw [escapeText_lt]; simp
    by_cases h3 : c = '>'
    · subst h3; rw [escapeText_gt]; simp
    by_cases h4 : c = '\u00A0'
    · subst h4; rw [escapeText_nbsp]; simp
    rw [escapeText_cons_ne h1 h2 h3 h4]; simp

theorem parseGo_nil (fuel : Nat) (acc : Str) (stop : Option Str) :
    parseGo fuel acc stop [] = (flushText acc .fnil, []) := by
  cases fuel <;> rfl

theorem parseGo_text {t : Str} (ht : ∀ ch ∈ t, ch ≠ '<') :
    ∀ (fuel : Nat) (acc : Str) (stop : Option Str) (rest : Str),
      t.length ≤ fuel →
      parseGo fuel acc stop (t ++ rest) =
        parseGo (fuel - t.length) (acc ++ t) stop rest := by
  induction t with
  | nil => intro fuel acc stop rest _; simp
  | cons c t' ih =>
    intro fuel acc stop rest h
    obtain ⟨f, rfl⟩ : ∃ f, fuel = f + 1 := by
      refine ⟨fuel - 1, ?_⟩
      simp only [List.length_cons] at h
      omega
    have hc : c ≠ '<' := ht c (by simp)
    have hstep : parseGo (f + 1) acc stop (c :: (t' ++ rest)) =
        parseGo f (acc ++ [c]) stop (t' ++ rest) := by
      simp [parseGo, hc]
    show parseGo (f + 1) acc stop (c :: (t' ++ rest)) = _
    rw [hstep, ih (fun ch hh => ht ch (by simp [hh])) f (acc ++ [c]) stop rest
      (by simp only [List.length_cons] at h; omega)]
    have harith : f + 1 - (c :: t').length = f - t'.length := by
      simp only [List.length_cons]
      omega
    rw [harith]
    simp

theorem parseHTMLL_escapeText (u : Str) :
    parseHTMLL (escapeText u) = flushText (escapeText u) .fnil := by
  unfold parseHTMLL
  have h := parseGo_text (escapeText_no_lt u) ((escapeText u).length + 1) [] none []
    (by omega)
  rw [List.append_nil] at h
  rw [h, parseGo_nil]
  simp

/-- C1: user bubbles are rendered through `escapeHTML` only, and parsing the
escaped text back yields exactly one text node holding the literal input (or
nothing for the empty input): the interpreted markup equals the literal text
and no element node is ever created from user input. -/
theorem C1_user_text_literal (t : String) :
    renderBubble Role.user t = escapeHTML t ∧
    parseHTMLL ((escapeHTML t).toList) =
      (if t.toList = [] then HForest.fnil
       else HForest.fcons (HNode.htext t.toList) HForest.fnil) ∧
    hasElemF (parseHTMLL ((escapeHTML t).toList)) = false := by
  have htl : (escapeHTML t).toList = escapeText t.toList := rfl
  have hp : parseHTMLL ((escapeHTML t).toList) = flushText (escapeText t.toList) .fnil := by
    rw [htl]
    exact parseHTMLL_escapeText t.toList
  have hflush : flushText (escapeText t.toList) .fnil =
      (if t.toList = [] then HForest.fnil
       else HForest.fcons (HNode.htext t.toList) HForest.fnil) := by
    unfold flushText
    by_cases h : t.toList = []
    · rw [if_pos h, h]
      simp [escapeText]
    · rw [if_neg h]
      have hne : escapeText t.toList ≠ [] := escapeText_ne_nil h
      rw [if_neg (by simpa [List.isEmpty_iff] using hne)]
      rw [unescape_escapeText]
  refine ⟨rfl, hp.trans hflush, ?_⟩
  rw [hp, hflush]
  by_cases h : t.toList = []
  · rw [if_pos h]; rfl
  · rw [if_neg h]; rfl

theorem char_ofNat_valNat (n : Nat) (h : n.isValidChar) :
    (Char.ofNat n).val.toBitVec.toNat = n := by
  simp only [Char.ofNat, Char.ofNatAux, UInt32.ofNat']
  rw [dif_pos h]
  simp [BitVec.toNat_ofNatLt]

theorem char_le_iff {a b : Char} :
    a ≤ b ↔ a.val.toBitVec.toNat ≤ b.val.toBitVec.toNat := by
  rw [Char.le_def, UInt32.le_def, BitVec.le_def]

theorem lowerC_eq_of_not_upper {c : Char} (h : ¬('A' ≤ c ∧ c ≤ 'Z')) :
    lowerC c = c := if_neg h

theorem lowerC_upper {c : Char} (h1 : 'A' ≤ c) (h2 : c ≤ 'Z') :
    'a' ≤ lowerC c ∧ lowerC c ≤ 'z' := by
  have hcn : c.toNat = c.val.toBitVec.toNat := rfl
  have hval : (c.toNat + 32).isValidChar := by
    left
    have := char_le_iff.mp h2
    have e2 : ('Z'.val.toBitVec.toNat) = 90 := by decide
    show c.toNat + 32 < 55296
    omega
  have ht : (Char.ofNat (c.toNat + 32)).val.toBitVec.toNat = c.toNat + 32 :=
    char_ofNat_valNat _ hval
  have hl : lowerC c = Char.ofNat (c.toNat + 32) := if_pos ⟨h1, h2⟩
  have e1 : ('A'.val.toBitVec.toNat) = 65 := by decide
  have e2 : ('Z'.val.toBitVec.toNat) = 90 := by decide
  have e3 : ('a'.val.toBitVec.toNat) = 97 := by decide
  have e4 : ('z'.val.toBitVec.toNat) = 122 := by decide
  have hv1 := char_le_iff.mp h1
  have hv2 := char_le_iff.mp h2
  rw [hl]
  constructor <;> rw [char_le_iff] <;> rw [ht] <;> omega

theorem lower_le_of_upper {c : Char} (h1 : 'A' ≤ c) (h2 : c ≤ 'Z') :
    97 ≤ (lowerC c).val.toBitVec.toNat ∧ (lowerC c).val.toBitVec.toNat ≤ 122 := by
  have h := lowerC_upper h1 h2
  have e3 : ('a'.val.toBitVec.toNat) = 97 := by decide
  have e4 : ('z'.val.toBitVec.toNat) = 122 := by decide
  have hv1 := char_le_iff.mp h.1
  have hv2 := char_le_iff.mp h.2
  omega

theorem jsWS_printable {c : Char} (h1 : '!' ≤ c) (h2 : c ≤ '~') :
    jsWS c = false := by
  unfold jsWS
  simp only [Bool.or_eq_false_iff, decide_eq_false_iff_not]
  repeat' apply And.intro
  all_goals
    rintro rfl
  all_goals
    first
      | exact absurd h1 (by decide)
      | exact absurd h2 (by decide)

theorem printable_of_lower {c : Char} (h1 : 'a' ≤ c) (h2 : c ≤ 'z') :
    '!' ≤ c ∧ c ≤ '~' := by
  have hv1 := char_le_iff.mp h1
  have hv2 := char_le_iff.mp h2
  have e1 : ('a'.val.toBitVec.toNat) = 97 := by decide
  have e2 : ('z'.val.toBitVec.toNat) = 122 := by decide
  have e3 : ('!'.val.toBitVec.toNat) = 33 := by decide
  have e4 : ('~'.val.toBitVec.toNat) = 126 := by decide
  constructor <;> rw [char_le_iff] <;> omega

theorem ne_of_range {c d : Char}
    (h1 : 'a' ≤ c) (hd : (d.val.toBitVec.toNat) < 97) : c ≠ d := by
  intro he
  subst he
  have hv := char_le_iff.mp h1
  have e1 : ('a'.val.toBitVec.toNat) = 97 := by decide
  omega

theorem attrNameC_of_lower {c : Char} (h1 : 'a' ≤ c) (h2 : c ≤ 'z') :
    attrNameC c = true := by
  have hp := printable_of_lower h1 h2
  unfold attrNameC
  rw [jsWS_printable hp.1 hp.2]
  have n1 : c ≠ '/' := ne_of_range h1 (by decide)
  have n2 : c ≠ '>' := ne_of_range h1 (by decide)
  have n3 : c ≠ '=' := ne_of_range h1 (by decide)
  have n4 : c ≠ '"' := ne_of_range h1 (by decide)
  have n5 : c ≠ '\'' := ne_of_range h1 (by decide)
  simp [n1, n2, n3, n4, n5]

theorem digit_bounds {c : Char} (hd : Char.isDigit c = true) :
    48 ≤ c.val.toBitVec.toNat ∧ c.val.toBitVec.toNat ≤ 57 := by
  unfold Char.isDigit at hd
  simp only [Bool.and_eq_true, decide_eq_true_eq, ge_iff_le, UInt32.le_def,
    BitVec.le_def] at hd
  have e1 : ((48 : UInt32).toBitVec.toNat) = 48 := by decide
  have e2 : ((57 : UInt32).toBitVec.toNat) = 57 := by decide
  omega

theorem not_upper_of_digit {c : Char} (hd : Char.isDigit c = true) :
    ¬('A' ≤ c ∧ c ≤ 'Z') := by
  rintro ⟨hA, _⟩
  have hb := digit_bounds hd
  have hv := char_le_iff.mp hA
  have e1 : ('A'.val.toBitVec.toNat) = 65 := by decide
  omega

theorem not_upper_of_lower {c : Char} (h1 : 'a' ≤ c) :
    ¬('A' ≤ c ∧ c ≤ 'Z') := by
  rintro ⟨_, hZ⟩
  have hv1 := char_le_iff.mp h1
  have hv2 := char_le_iff.mp hZ
  have e1 : ('a'.val.toBitVec.toNat) = 97 := by decide
  have e2 : ('Z'.val.toBitVec.toNat) = 90 := by decide
  omega

theorem lcTagC_lowerC_of_tagC {c : Char} (h : tagC c = true) :
    lcTagC (lowerC c) = true := by
  unfold tagC alphaC at h
  simp only [Bool.or_eq_true, decide_eq_true_eq] at h
  rcases h with (h | h) | h
  · rw [lowerC_eq_of_not_upper (not_upper_of_lower h.1)]
    unfold lcTagC
    simp [h]
  · have := lowerC_upper h.1 h.2
    unfold lcTagC
    simp [this]
  · rw [lowerC_eq_of_not_upper (not_upper_of_digit h)]
    unfold lcTagC
    simp [h]

theorem lcAttrC_lowerC_of_attrNameC {c : Char} (h : attrNameC c = true) :
    lcAttrC (lowerC c) = true := by
  by_cases hu : 'A' ≤ c ∧ c ≤ 'Z'
  · have hr := lowerC_upper hu.1 hu.2
    unfold lcAttrC
    rw [attrNameC_of_lower hr.1 hr.2]
    simp [not_upper_of_lower hr.1]
  · rw [lowerC_eq_of_not_upper hu]
    unfold lcAttrC
    simp [h, hu]

theorem escapeAttr_amp (r : Str) :
    escapeAttr ('&' :: r) = '&' :: 'a' :: 'm' :: 'p' :: ';' :: escapeAttr r := by
  simp [escapeAttr]

theorem escapeAttr_quot (r : Str) :
    escapeAttr ('"' :: r) = '&' :: 'q' :: 'u' :: 'o' :: 't' :: ';' :: escapeAttr r := by
  simp [escapeAttr]

theorem escapeAttr_nbsp (r : Str) :
    escapeAttr ('\u00A0' :: r) = '&' :: 'n' :: 'b' :: 's' :: 'p' :: ';' :: escapeAttr r := by
  simp [escapeAttr]

theorem escapeAttr_cons_ne {c : Char} {r : Str} (h1 : c ≠ '&') (h2 : c ≠ '"')
    (h3 : c ≠ '\u00A0') :
    escapeAttr (c :: r) = c :: escapeAttr r := by
  simp [escapeAttr, h1, h2, h3]

theorem unescape_escapeAttr (s : Str) : unescape (escapeAttr s) = s := by
  induction s with
  | nil => rfl
  | cons c r ih =>
    by_cases h1 : c = '&'
    · subst h1
      rw [escapeAttr_amp]
      show '&' :: unescape (escapeAttr r) = '&' :: r
      rw [ih]
    by_cases h2 : c = '"'
    · subst h2
      rw [escapeAttr_quot]
      show '"' :: unescape (escapeAttr r) = '"' :: r
      rw [ih]
    by_cases h3 : c = '\u00A0'
    · subst h3
      rw [escapeAttr_nbsp]
      show '\u00A0' :: unescape (escapeAttr r) = '\u00A0' :: r
      rw [ih]
    rw [escapeAttr_cons_ne h1 h2 h3, unescape_cons_ne h1, ih]

theorem escapeAttr_no_quot (s : Str) : ∀ ch ∈ escapeAttr s, ch ≠ '"' := by
  induction s with
  | nil => simp [escapeAttr]
  | cons c r ih =>
    by_cases h1 : c = '&'
    · subst h1; rw [escapeAttr_amp]; simp_all
    by_cases h2 : c = '"'
    · subst h2; rw [escapeAttr_quot]; simp_all
    by_cases h3 : c = '\u00A0'
    · subst h3; rw [escapeAttr_nbsp]; simp_all
    rw [escapeAttr_cons_ne h1 h2 h3]
    intro ch hch
    rcases List.mem_cons.mp hch with h | h
    · subst h; exact h2
    · exact ih ch h

theorem escapeText_append (u s : Str) :
    escapeText (u ++ s) = escapeText u ++ escapeText s := by
  induction u with
  | nil => rfl
  | cons c r ih =>
    by_cases h1 : c = '&'
    · subst h1
      rw [List.cons_append, escapeText_amp, escapeText_amp, ih]
      rfl
    by_cases h2 : c = '<'
    · subst h2
      rw [List.cons_append, escapeText_lt, escapeText_lt, ih]
      rfl
    by_cases h3 : c = '>'
    · subst h3
      rw [List.cons_append, escapeText_gt, escapeText_gt, ih]
      rfl
    by_cases h4 : c = '\u00A0'
    · subst h4
      rw [List.cons_append, escapeText_nbsp, escapeText_nbsp, ih]
      rfl
    rw [List.cons_append, escapeText_cons_ne h1 h2 h3 h4,
      escapeText_cons_ne h1 h2 h3 h4, ih]
    rfl

theorem lowerC_eq_of_lcTagC {c : Char} (h : lcTagC c = true) : lowerC c = c := by
  unfold lcTagC at h
  simp only [Bool.or_eq_true, decide_eq_true_eq] at h
  rcases h with h | h
  · exact lowerC_eq_of_not_upper (not_upper_of_lower h.1)
  · exact lowerC_eq_of_not_upper (not_upper_of_digit h)

theorem lowerS_eq_of_all_lcTagC {s : Str} (h : ∀ c ∈ s, lcTagC c = true) :
    lowerS s = s := by
  induction s with
  | nil => rfl
  | cons c r ih =>
    show lowerC c :: lowerS r = c :: r
    rw [lowerC_eq_of_lcTagC (h c (by simp)), ih (fun x hx => h x (by simp [hx]))]

theorem lowerC_eq_of_lcAttrC {c : Char} (h : lcAttrC c = true) : lowerC c = c := by
  unfold lcAttrC at h
  simp only [Bool.and_eq_true, Bool.not_eq_true', decide_eq_false_iff_not] at h
  exact lowerC_eq_of_not_upper h.2

theorem lowerS_eq_of_all_lcAttrC {s : Str} (h : ∀ c ∈ s, lcAttrC c = true) :
    lowerS s = s := by
  induction s with
  | nil => rfl
  | cons c r ih =>
    show lowerC c :: lowerS r = c :: r
    rw [lowerC_eq_of_lcAttrC (h c (by simp)), ih (fun x hx => h x (by simp [hx]))]

theorem textCons_nil_left (g : HForest) : textCons [] g = g := by
  simp [textCons]

theorem textCons_textCons (u s : Str) (g : HForest) :
    textCons u (textCons s g) = textCons (u ++ s) g := by
  by_cases hu : u = []
  · subst hu
    rw [textCons_nil_left, List.nil_append]
  by_cases hs : s = []
  · subst hs
    rw [textCons_nil_left, List.append_nil]
  have hus : u ++ s ≠ [] := by simp [hu]
  cases g with
  | fnil =>
    unfold textCons
    rw [if_neg (by simpa [List.isEmpty_iff] using hu),
        if_neg (by simpa [List.isEmpty_iff] using hs),
        if_neg (by simpa [List.isEmpty_iff] using hus)]
  | fcons n g2 =>
    cases n with
    | htext s2 =>
      unfold textCons
      rw [if_neg (by simpa [List.isEmpty_iff] using hu),
          if_neg (by simpa [List.isEmpty_iff] using hs),
          if_neg (by simpa [List.isEmpty_iff] using hus)]
      simp [List.append_assoc]
    | helem t a k =>
      unfold textCons
      rw [if_neg (by simpa [List.isEmpty_iff] using hu),
          if_neg (by simpa [List.isEmpty_iff] using hs),
          if_neg (by simpa [List.isEmpty_iff] using hus)]

theorem flushText_escapeText_fnil (u : Str) :
    flushText (escapeText u) .fnil = textCons u .fnil := by
  unfold flushText textCons
  by_cases hu : u = []
  · subst hu
    simp [escapeText]
  · rw [if_neg (by simpa [List.isEmpty_iff] using escapeText_ne_nil hu),
        if_neg (by simpa [List.isEmpty_iff] using hu), unescape_escapeText]

theorem flushText_escapeText_elem (u t : Str) (a : List (Str × Str))
    (k : HForest) (g : HForest) :
    flushText (escapeText u) (.fcons (.helem t a k) g) =
      textCons u (.fcons (.helem t a k) g) := by
  unfold flushText textCons
  by_cases hu : u = []
  · subst hu
    simp [escapeText]
  · rw [if_neg (by simpa [List.isEmpty_iff] using escapeText_ne_nil hu),
        if_neg (by simpa [List.isEmpty_iff] using hu), unescape_escapeText]

theorem tagC_of_lcTagC {c : Char} (h : lcTagC c = true) : tagC c = true := by
  unfold lcTagC at h
  unfold tagC alphaC
  simp only [Bool.or_eq_true, decide_eq_true_eq] at h ⊢
  rcases h with h | h
  · exact Or.inl (Or.inl h)
  · exact Or.inr h

theorem wfName_parts {t : Str} (hw : wfName t = true) :
    t ≠ [] ∧ (∀ c ∈ t, lcTagC c = true) := by
  cases t with
  | nil => simp [wfName] at hw
  | cons c r =>
    unfold wfName at hw
    simp only [Bool.and_eq_true, List.all_eq_true, decide_eq_true_eq] at hw
    exact ⟨by simp, hw.2⟩

theorem wfAttr_parts {n v : Str} (hw : wfAttr (n, v) = true) :
    n ≠ [] ∧ (∀ c ∈ n, lcAttrC c = true) := by
  unfold wfAttr at hw
  simp only [Bool.and_eq_true, List.all_eq_true, Bool.not_eq_true'] at hw
  refine ⟨?_, hw.2⟩
  intro he
  subst he
  simp at hw

theorem lcAttrC_attrNameC {c : Char} (h : lcAttrC c = true) : attrNameC c = true := by
  unfold lcAttrC at h
  simp only [Bool.and_eq_true] at h
  exact h.1

theorem parseTag_close (fuel : Nat) (t r' : Str) (hw : wfName t = true) :
    parseTag fuel ('/' :: (t ++ '>' :: r')) = some (.tclose t, r') := by
  obtain ⟨hne, hall⟩ := wfName_parts hw
  obtain ⟨c, r, rfl⟩ : ∃ c r, t = c :: r := by
    cases t with
    | nil => exact absurd rfl hne
    | cons c r => exact ⟨c, r, rfl⟩
  unfold parseTag
  dsimp only
  rw [if_pos rfl]
  have hnm : ((c :: r) ++ '>' :: r').takeWhile tagC = c :: r :=
    takeWhile_append_eq (fun x hx => tagC_of_lcTagC (hall x hx))
      (takeWhile_nil_of_head (by decide))
  simp only [hnm]
  rw [if_neg (by simp [List.isEmpty])]
  rw [List.drop_left]
  have hdw : ('>' :: r').dropWhile (fun x => decide (x ≠ '>')) = '>' :: r' := by
    simp [List.dropWhile_cons]
  rw [hdw, lowerS_eq_of_all_lcTagC hall]
  rfl

theorem attrNameC_parts {c : Char} (h : attrNameC c = true) :
    jsWS c = false ∧ c ≠ '/' ∧ c ≠ '>' ∧ c ≠ '=' ∧ c ≠ '"' ∧ c ≠ '\'' := by
  unfold attrNameC at h
  simp only [Bool.and_eq_true, Bool.not_eq_true', decide_eq_true_eq] at h
  exact ⟨h.1.1.1.1.1, h.1.1.1.1.2, h.1.1.1.2, h.1.1.2, h.1.2, h.2⟩

theorem drop_cons_append {α : Type} (c : α) (l r : List α) :
    (c :: (l ++ r)).drop (c :: l).length = r := by
  simp only [List.length_cons, List.drop_succ_cons]
  exact List.drop_left l r

theorem takeWhile_cons_append {α : Type} {p : α → Bool} {c : α} {l r : List α}
    (hc : p c = true) (hl : ∀ x ∈ l, p x = true) (hr : r.takeWhile p = []) :
    (c :: (l ++ r)).takeWhile p = c :: l := by
  rw [← List.cons_append]
  exact takeWhile_append_eq (by
    intro x hx
    rcases List.mem_cons.mp hx with h | h
    · subst h; exact hc
    · exact hl x h) hr

theorem parseAttrs_ser (a : List (Str × Str)) :
    ∀ (fuel : Nat) (rest : Str), (∀ p ∈ a, wfAttr p = true) →
      a.length < fuel →
      parseAttrs fuel (serAttrs a ++ '>' :: rest) = some (a, rest) := by
  induction a with
  | nil =>
    intro fuel rest _ hf
    obtain ⟨g, rfl⟩ : ∃ g, fuel = g + 1 := ⟨fuel - 1, by omega⟩
    show parseAttrs (g + 1) ('>' :: rest) = some ([], rest)
    unfold parseAttrs parseAttrsStep
    have hgt : jsWS '>' = false := by decide
    rw [List.dropWhile_cons, hgt]
    simp
  | cons p as ih =>
    intro fuel rest hwf hf
    obtain ⟨n, v⟩ := p
    obtain ⟨g, rfl⟩ : ∃ g, fuel = g + 1 := ⟨fuel - 1, by omega⟩
    obtain ⟨hnne, hnall⟩ := wfAttr_parts (hwf (n, v) (by simp))
    obtain ⟨c0, n', rfl⟩ : ∃ c0 n', n = c0 :: n' := by
      cases n with
      | nil => exact absurd rfl hnne
      | cons c0 n' => exact ⟨c0, n', rfl⟩
    have hc0a : attrNameC c0 = true := lcAttrC_attrNameC (hnall c0 (by simp))
    obtain ⟨hc0ws, hc0sl, hc0gt, hc0eq, hc0q, hc0q2⟩ := attrNameC_parts hc0a
    have hser : serAttrs ((c0 :: n', v) :: as) ++ '>' :: rest =
        ' ' :: (c0 :: (n' ++ ('=' :: '"' :: (escapeAttr v ++
          '"' :: (serAttrs as ++ '>' :: rest))))) := by
      show (' ' :: (c0 :: n') ++ "=\"".toList ++ escapeAttr v ++ "\"".toList ++
          serAttrs as) ++ '>' :: rest = _
      simp [List.append_assoc]
    rw [hser]
    unfold parseAttrs parseAttrsStep
    have hws1 : jsWS ' ' = true := by decide
    rw [List.dropWhile_cons, hws1]
    simp only [if_true]
    rw [List.dropWhile_cons, hc0ws]
    simp only [Bool.false_eq_true, if_false]
    rw [if_neg hc0gt, if_neg hc0sl]
    have hnm : (c0 :: (n' ++ ('=' :: '"' :: (escapeAttr v ++
        '"' :: (serAttrs as ++ '>' :: rest))))).takeWhile attrNameC = c0 :: n' := by
      apply takeWhile_cons_append hc0a
      · intro x hx; exact lcAttrC_attrNameC (hnall x (by simp [hx]))
      · apply takeWhile_nil_of_head
        exact (by decide : attrNameC '=' = false)
    rw [hnm]
    rw [if_neg (by simp [List.isEmpty])]
    rw [drop_cons_append]
    have heqws : jsWS '=' = false := by decide
    rw [List.dropWhile_cons, heqws]
    simp only [Bool.false_eq_true, if_false, reduceIte]
    have hqws : jsWS '"' = false := by decide
    rw [List.dropWhile_cons, hqws]
    simp only [Bool.false_eq_true, if_false, reduceIte]
    have hv : (escapeAttr v ++ '"' :: (serAttrs as ++ '>' :: rest)).takeWhile
        (fun x => decide (x ≠ '"')) = escapeAttr v := by
      apply takeWhile_append_eq
      · intro x hx
        simp [escapeAttr_no_quot v x hx]
      · apply takeWhile_nil_of_head
        simp
    rw [hv]
    have hdrop : (escapeAttr v ++ '"' :: (serAttrs as ++ '>' :: rest)).drop
        (escapeAttr v).length = '"' :: (serAttrs as ++ '>' :: rest) := by
      exact List.drop_left _ _
    rw [hdrop]
    show (match parseAttrs g (serAttrs as ++ '>' :: rest) with
          | some (as2, r3) =>
            some ((lowerS (c0 :: n'), unescape (escapeAttr v)) :: as2, r3)
          | none => none) = _
    rw [ih g rest (fun q hq => hwf q (by simp [hq])) (by
      simp only [List.length_cons] at hf
      omega)]
    rw [lowerS_eq_of_all_lcAttrC hnall, unescape_escapeAttr]

theorem serAttrs_headTakeWhile (a : List (Str × Str)) (rest : Str) :
    (serAttrs a ++ '>' :: rest).takeWhile tagC = [] := by
  cases a with
  | nil => exact takeWhile_nil_of_head (by decide)
  | cons p as =>
    obtain ⟨n, v⟩ := p
    exact takeWhile_nil_of_head (by decide)

theorem parseTag_open (fuel : Nat) (t : Str) (a : List (Str × Str)) (rest : Str)
    (hw : wfName t = true) (ha : ∀ p ∈ a, wfAttr p = true) (hf : a.length < fuel) :
    parseTag fuel (t ++ serAttrs a ++ '>' :: rest) = some (.topen t a, rest) := by
  obtain ⟨c, r, rfl⟩ : ∃ c r, t = c :: r := by
    cases t with
    | nil => simp [wfName] at hw
    | cons c r => exact ⟨c, r, rfl⟩
  have hcl : 'a' ≤ c ∧ c ≤ 'z' := by
    unfold wfName at hw
    simp only [Bool.and_eq_true, decide_eq_true_eq] at hw
    exact hw.1
  have hcsl : c ≠ '/' := ne_of_range hcl.1 (by decide)
  have halpha : alphaC c = true := by
    unfold alphaC
    simp [hcl.1, hcl.2]
  have hall := (wfName_parts hw).2
  unfold parseTag
  rw [List.append_assoc, List.cons_append]
  dsimp only
  rw [if_neg hcsl, if_pos halpha]
  have hnm : (c :: (r ++ (serAttrs a ++ '>' :: rest))).takeWhile tagC = c :: r :=
    takeWhile_cons_append (tagC_of_lcTagC (hall c (by simp)))
      (fun x hx => tagC_of_lcTagC (hall x (by simp [hx])))
      (serAttrs_headTakeWhile a rest)
  rw [hnm, drop_cons_append, parseAttrs_ser a fuel rest ha hf,
    lowerS_eq_of_all_lcTagC hall]

theorem mem_takeWhile_pred {α : Type} {p : α → Bool} :
    ∀ {l : List α} {x : α}, x ∈ l.takeWhile p → p x = true := by
  intro l
  induction l with
  | nil => intro x hx; simp [List.takeWhile] at hx
  | cons c r ih =>
    intro x hx
    rw [List.takeWhile_cons] at hx
    by_cases hc : p c = true
    · rw [if_pos hc] at hx
      rcases List.mem_cons.mp hx with h | h
      · subst h; exact hc
      · exact ih h
    · rw [if_neg hc] at hx
      simp at hx

theorem wfAttr_lowerS {nm : Str} (h1 : nm ≠ [])
    (h2 : ∀ c ∈ nm, attrNameC c = true) (v : Str) :
    wfAttr (lowerS nm, v) = true := by
  unfold wfAttr
  obtain ⟨c, r, rfl⟩ : ∃ c r, nm = c :: r := by
    cases nm with
    | nil => exact absurd rfl h1
    | cons c r => exact ⟨c, r, rfl⟩
  simp only [Bool.and_eq_true, List.all_eq_true]
  constructor
  · simp [lowerS, List.isEmpty]
  · intro x hx
    rcases List.mem_map.mp hx with ⟨y, hy, rfl⟩
    exact lcAttrC_lowerC_of_attrNameC (h2 y hy)

theorem parseAttrs_wf :
    ∀ (fuel : Nat) (s : Str) (a : List (Str × Str)) (r : Str),
      parseAttrs fuel s = some (a, r) → ∀ p ∈ a, wfAttr p = true := by
  intro fuel
  induction fuel with
  | zero =>
    intro s a r h
    simp [parseAttrs] at h
  | succ g ih =>
    intro s a r h
    unfold parseAttrs parseAttrsStep at h
    dsimp only at h
    repeat' split at h
    all_goals first
      | exact Option.noConfusion h
      | exact ih _ _ _ h
      | (simp only [Option.some.injEq, Prod.mk.injEq] at h
         intro p hp
         rw [← h.1] at hp
         first
           | exact absurd hp (List.not_mem_nil p)
           | (rcases List.mem_cons.mp hp with hp | hp
              · subst hp
                exact wfAttr_lowerS (by intro hcon; simp_all)
                  (fun x hx => mem_takeWhile_pred hx) _
              · exact ih _ _ _ (by assumption) p hp))

theorem wfName_lowerS_tag {c : Char} {r : Str} (hc : alphaC c = true)
    (hr : ∀ x ∈ r, tagC x = true) :
    wfName (lowerS (c :: r)) = true := by
  show wfName (lowerC c :: lowerS r) = true
  unfold wfName
  simp only [Bool.and_eq_true, List.all_eq_true, decide_eq_true_eq]
  have hhead : 'a' ≤ lowerC c ∧ lowerC c ≤ 'z' := by
    unfold alphaC at hc
    simp only [Bool.or_eq_true, decide_eq_true_eq] at hc
    rcases hc with h | h
    · rw [lowerC_eq_of_not_upper (not_upper_of_lower h.1)]
      exact h
    · exact lowerC_upper h.1 h.2
  refine ⟨hhead, ?_⟩
  intro x hx
  rcases List.mem_cons.mp hx with h | h
  · subst h
    unfold lcTagC
    simp [hhead.1, hhead.2]
  · rcases List.mem_map.mp h with ⟨y, hy, rfl⟩
    exact lcTagC_lowerC_of_tagC (hr y hy)

theorem parseTag_wf_open :
    ∀ (fuel : Nat) (s t : Str) (a : List (Str × Str)) (r : Str),
      parseTag fuel s = some (.topen t a, r) →
      wfName t = true ∧ ∀ p ∈ a, wfAttr p = true := by
  intro fuel s t a r h
  cases s with
  | nil => exact Option.noConfusion h
  | cons c rr =>
    unfold parseTag at h
    dsimp only at h
    by_cases h1 : c = '/'
    · rw [if_pos h1] at h
      split at h
      · exact Option.noConfusion h
      · split at h
        · simp at h
        · exact Option.noConfusion h
    · rw [if_neg h1] at h
      by_cases h2 : alphaC c = true
      · rw [if_pos h2] at h
        split at h
        · rename_i as r2 heq
          simp only [Option.some.injEq, Prod.mk.injEq, TagTok.topen.injEq] at h
          obtain ⟨⟨ht, ha⟩, hr⟩ := h
          subst ht; subst ha
          constructor
          · have hc : tagC c = true := by unfold tagC; rw [h2]; rfl
            have hcons : (c :: rr).takeWhile tagC = c :: rr.takeWhile tagC := by
              rw [List.takeWhile_cons, if_pos hc]
            rw [hcons]
            exact wfName_lowerS_tag h2 (fun x hx => mem_takeWhile_pred hx)
          · intro p hp
            exact parseAttrs_wf fuel _ _ _ heq p hp
        · exact Option.noConfusion h
      · rw [if_neg h2] at h
        exact Option.noConfusion h

theorem flushText_wf {acc : Str} {f : HForest} (h : wfF f = true) :
    wfF (flushText acc f) = true := by
  unfold flushText
  split
  · exact h
  · show (wfN (.htext (unescape acc)) && wfF f) = true
    rw [h]
    rfl

theorem wfF_fcons_elem {t : Str} {a : List (Str × Str)} {c f : HForest}
    (h1 : wfName t = true) (h2 : ∀ p ∈ a, wfAttr p = true)
    (h3 : (!isVoid t || isNilF c) = true)
    (h4 : wfF c = true) (h5 : wfF f = true) :
    wfF (.fcons (.helem t a c) f) = true := by
  show (wfN (.helem t a c) && wfF f) = true
  simp only [wfN, Bool.and_eq_true, List.all_eq_true]
  exact ⟨⟨⟨⟨h1, h2⟩, h3⟩, h4⟩, h5⟩

theorem parseGo_wf :
    ∀ (fuel : Nat) (acc : Str) (stop : Option Str) (s : Str),
      wfF (parseGo fuel acc stop s).1 = true := by
  intro fuel
  induction fuel with
  | zero =>
    intro acc stop s
    simp only [parseGo]
    exact flushText_wf rfl
  | succ g ih =>
    intro acc stop s
    cases s with
    | nil =>
      simp only [parseGo]
      exact flushText_wf rfl
    | cons c r =>
      unfold parseGo
      dsimp only
      by_cases hc : c = '<'
      · rw [if_pos hc]
        cases hpt : parseTag g r with
        | none => exact ih _ _ _
        | some pr =>
          obtain ⟨tok, r2⟩ := pr
          cases tok with
          | tclose t =>
            dsimp only
            by_cases hs : stop = some t
            · rw [if_pos hs]
              exact flushText_wf rfl
            · rw [if_neg hs]
              exact ih _ _ _
          | topen t a =>
            dsimp only
            have hwf := parseTag_wf_open g r t a _ hpt
            by_cases hv : isVoid t = true
            · rw [if_pos hv]
              refine flushText_wf (wfF_fcons_elem hwf.1 hwf.2 ?_ rfl (ih _ _ _))
              simp [isNilF]
            · rw [if_neg hv]
              refine flushText_wf (wfF_fcons_elem hwf.1 hwf.2 ?_ (ih _ _ _) (ih _ _ _))
              simp [Bool.not_eq_true] at hv
              simp [hv]
      · rw [if_neg hc]
        exact ih _ _ _

theorem escapeText_nil : escapeText [] = [] := rfl

theorem serAttrs_length (a : List (Str × Str)) :
    a.length ≤ (serAttrs a).length := by
  induction a with
  | nil => simp [serAttrs]
  | cons p as ih =>
    obtain ⟨n, v⟩ := p
    show as.length + 1 ≤ (' ' :: n ++ "=\"".toList ++ escapeAttr v ++ "\"".toList ++ serAttrs as).length
    simp only [List.length_append, List.length_cons]
    omega

theorem isNilF_eq {c : HForest} (h : isNilF c = true) : c = .fnil := by
  cases c with
  | fnil => rfl
  | fcons n f => simp [isNilF] at h

theorem parseGo_serF :
    ∀ (n : Nat) (f : HForest), sizeOf f ≤ n → wfF f = true →
      ∀ (u : Str) (stop : Option Str) (rest r' : Str) (fuel : Nat),
        StopsAt stop rest r' →
        (serF f ++ rest).length < fuel →
        parseGo fuel (escapeText u) stop (serF f ++ rest) =
          (textCons u (normF f), r') := by
  intro n
  induction n with
  | zero =>
    intro f hsz
    exfalso
    cases f with
    | fnil => simp at hsz
    | fcons a b => simp only [HForest.fcons.sizeOf_spec] at hsz; omega
  | succ n ih =>
    intro f hsz hwf u stop rest r' fuel hstop hfuel
    cases f with
    | fnil =>
      simp only [serF, List.nil_append] at hfuel ⊢
      cases hstop with
      | snil =>
        rw [parseGo_nil, flushText_escapeText_fnil]
        rfl
      | sclose t r2 hw =>
        obtain ⟨g, rfl⟩ : ∃ g, fuel = g + 1 := ⟨fuel - 1, by omega⟩
        unfold parseGo
        dsimp only
        rw [if_pos rfl, parseTag_close g t _ hw]
        dsimp only
        rw [if_pos rfl, flushText_escapeText_fnil]
        rfl
    | fcons nd f' =>
      cases nd with
      | htext s =>
        have hwf' : wfF f' = true := by
          simp only [wfF, wfN, Bool.and_eq_true] at hwf
          exact hwf.2
        have hsz' : sizeOf f' ≤ n := by
          simp only [HForest.fcons.sizeOf_spec, HNode.htext.sizeOf_spec] at hsz
          omega
        simp only [serF, serN] at hfuel ⊢
        rw [List.append_assoc] at hfuel ⊢
        have hle : (escapeText s).length ≤ fuel := by
          simp only [List.length_append] at hfuel
          omega
        rw [parseGo_text (escapeText_no_lt s) fuel (escapeText u) stop
          (serF f' ++ rest) hle, ← escapeText_append]
        rw [ih f' hsz' hwf' (u ++ s) stop rest r' (fuel - (escapeText s).length)
          hstop (by simp only [List.length_append] at hfuel ⊢; omega)]
        simp only [normF]
        rw [textCons_textCons]
      | helem t a c =>
        have hwfn : wfName t = true ∧ (∀ p ∈ a, wfAttr p = true) ∧
            (!isVoid t || isNilF c) = true ∧ wfF c = true ∧ wfF f' = true := by
          simp only [wfF, wfN, Bool.and_eq_true, List.all_eq_true] at hwf
          exact ⟨hwf.1.1.1.1, hwf.1.1.1.2, hwf.1.1.2, hwf.1.2, hwf.2⟩
        obtain ⟨hw, ha, hvn, hwc, hwf'⟩ := hwfn
        have hszc : sizeOf c ≤ n ∧ sizeOf f' ≤ n := by
          simp only [HForest.fcons.sizeOf_spec, HNode.helem.sizeOf_spec] at hsz
          omega
        obtain ⟨g, rfl⟩ : ∃ g, fuel = g + 1 := by
          refine ⟨fuel - 1, ?_⟩
          have : 0 < fuel := Nat.lt_of_le_of_lt (Nat.zero_le _) hfuel
          omega
        by_cases hv : isVoid t = true
        · have hcnil : c = .fnil := isNilF_eq (by
            rw [hv] at hvn
            simpa using hvn)
          subst hcnil
          have hshape : serF (.fcons (.helem t a .fnil) f') ++ rest =
              '<' :: (t ++ serAttrs a ++ '>' :: (serF f' ++ rest)) := by
            simp only [serF, serN, if_pos hv]
            simp [List.append_assoc]
          rw [hshape] at hfuel ⊢
          have hag : a.length < g := by
            have h1 := serAttrs_length a
            simp only [List.length_cons, List.length_append] at hfuel
            omega
          unfold parseGo
          dsimp only
          rw [if_pos rfl, parseTag_open g t a (serF f' ++ rest) hw ha hag]
          dsimp only
          rw [if_pos hv]
          have hrec := ih f' hszc.2 hwf' [] stop rest r' g hstop (by
            simp only [List.length_cons, List.length_append] at hfuel ⊢
            omega)
          rw [escapeText_nil] at hrec
          rw [hrec]
          dsimp only
          rw [textCons_nil_left, flushText_escapeText_elem]
          simp only [normF]
        · have hshape : serF (.fcons (.helem t a c) f') ++ rest =
              '<' :: (t ++ serAttrs a ++ '>' ::
                (serF c ++ ('<' :: '/' :: (t ++ '>' :: (serF f' ++ rest))))) := by
            simp only [serF, serN, if_neg hv]
            simp [List.append_assoc]
          rw [hshape] at hfuel ⊢
          have hag : a.length < g := by
            have h1 := serAttrs_length a
            simp only [List.length_cons, List.length_append] at hfuel
            omega
          unfold parseGo
          dsimp only
          rw [if_pos rfl, parseTag_open g t a _ hw ha hag]
          dsimp only
          rw [if_neg hv]
          have hkids := ih c hszc.1 hwc []
            (some t) ('<' :: '/' :: (t ++ '>' :: (serF f' ++ rest)))
            (serF f' ++ rest) g (StopsAt.sclose t (serF f' ++ rest) hw) (by
              simp only [List.length_cons, List.length_append] at hfuel ⊢
              omega)
          rw [escapeText_nil] at hkids
          rw [hkids]
          dsimp only
          have hsibs := ih f' hszc.2 hwf' [] stop rest r' g hstop (by
            simp only [List.length_cons, List.length_append] at hfuel ⊢
            omega)
          rw [escapeText_nil] at hsibs
          rw [hsibs]
          dsimp only
          rw [textCons_nil_left, textCons_nil_left, flushText_escapeText_elem]
          simp only [normF]

theorem parseHTMLL_serF {f : HForest} (h : wfF f = true) :
    parseHTMLL (serF f) = normF f := by
  unfold parseHTMLL
  have hr := parseGo_serF (sizeOf f) f (Nat.le_refl _) h [] none [] []
    ((serF f).length + 1) (StopsAt.snil none) (by simp)
  rw [escapeText_nil, List.append_nil] at hr
  rw [hr, textCons_nil_left]

theorem wfN_elem {t : Str} {a : List (Str × Str)} {c : HForest}
    (h1 : wfName t = true) (h2 : ∀ p ∈ a, wfAttr p = true)
    (h3 : (!isVoid t || isNilF c) = true) (h4 : wfF c = true) :
    wfN (.helem t a c) = true := by
  simp only [wfN, Bool.and_eq_true, List.all_eq_true]
  exact ⟨⟨⟨h1, h2⟩, h3⟩, h4⟩

theorem wfF_cleanF :
    ∀ (n : Nat) (f : HForest), sizeOf f ≤ n → wfF f = true →
      wfF (cleanF f) = true := by
  intro n
  induction n with
  | zero =>
    intro f hsz
    exfalso
    cases f with
    | fnil => simp at hsz
    | fcons a b => simp only [HForest.fcons.sizeOf_spec] at hsz; omega
  | succ n ih =>
    intro f hsz hwf
    cases f with
    | fnil => rfl
    | fcons nd f' =>
      cases nd with
      | htext s =>
        have hwf' : wfF f' = true := by
          simp only [wfF, wfN, Bool.and_eq_true] at hwf
          exact hwf.2
        have hsz' : sizeOf f' ≤ n := by
          simp only [HForest.fcons.sizeOf_spec, HNode.htext.sizeOf_spec] at hsz
          omega
        show (wfN (cleanN (.htext s)) && wfF (cleanF f')) = true
        rw [ih f' hsz' hwf']
        rfl
      | helem t a c =>
        have hwfn : wfName t = true ∧ (∀ p ∈ a, wfAttr p = true) ∧
            (!isVoid t || isNilF c) = true ∧ wfF c = true ∧ wfF f' = true := by
          simp only [wfF, wfN, Bool.and_eq_true, List.all_eq_true] at hwf
          exact ⟨hwf.1.1.1.1, hwf.1.1.1.2, hwf.1.1.2, hwf.1.2, hwf.2⟩
        obtain ⟨hw, ha, hvn, hwc, hwf'⟩ := hwfn
        have hszc : sizeOf c ≤ n ∧ sizeOf f' ≤ n := by
          simp only [HForest.fcons.sizeOf_spec, HNode.helem.sizeOf_spec] at hsz
          omega
        show (wfN (cleanN (.helem t a c)) && wfF (cleanF f')) = true
        rw [ih f' hszc.2 hwf', Bool.and_true]
        unfold cleanN
        split
        · have hvoid : (!isVoid t || isNilF (cleanF c)) = true := by
            by_cases hv : isVoid t = true
            · rw [hv] at hvn
              have : c = .fnil := isNilF_eq (by simpa using hvn)
              subst this
              simp [cleanF, isNilF]
            · simp only [Bool.not_eq_true] at hv
              simp [hv]
          exact wfN_elem hw (fun p hp => ha p (List.mem_of_mem_filter hp)) hvoid
            (ih c hszc.1 hwc)
        · rfl

theorem cleanF_idem :
    ∀ (n : Nat) (f : HForest), sizeOf f ≤ n → cleanF (cleanF f) = cleanF f := by
  intro n
  induction n with
  | zero =>
    intro f hsz
    exfalso
    cases f with
    | fnil => simp at hsz
    | fcons a b => simp only [HForest.fcons.sizeOf_spec] at hsz; omega
  | succ n ih =>
    intro f hsz
    cases f with
    | fnil => rfl
    | fcons nd f' =>
      cases nd with
      | htext s =>
        have hsz' : sizeOf f' ≤ n := by
          simp only [HForest.fcons.sizeOf_spec, HNode.htext.sizeOf_spec] at hsz
          omega
        show HForest.fcons (cleanN (cleanN (.htext s))) (cleanF (cleanF f')) =
          .fcons (cleanN (.htext s)) (cleanF f')
        rw [ih f' hsz']
        rfl
      | helem t a c =>
        have hszc : sizeOf c ≤ n ∧ sizeOf f' ≤ n := by
          simp only [HForest.fcons.sizeOf_spec, HNode.helem.sizeOf_spec] at hsz
          omega
        show HForest.fcons (cleanN (cleanN (.helem t a c))) (cleanF (cleanF f')) =
          .fcons (cleanN (.helem t a c)) (cleanF f')
        rw [ih f' hszc.2]
        have hcn : cleanN (.helem t a c) =
            if allowedTags.contains (lowerS t) = true then
              .helem t (a.filter (fun p => !dropAttr p.1 p.2)) (cleanF c)
            else .htext (textContentF c) := rfl
        by_cases hall : allowedTags.contains (lowerS t) = true
        · rw [hcn, if_pos hall]
          rw [show cleanN (.helem t (a.filter (fun p => !dropAttr p.1 p.2))
                (cleanF c)) =
              (if allowedTags.contains (lowerS t) = true then
                .helem t ((a.filter (fun p => !dropAttr p.1 p.2)).filter
                  (fun p => !dropAttr p.1 p.2)) (cleanF (cleanF c))
              else .htext (textContentF (cleanF c))) from rfl,
            if_pos hall, List.filter_filter, ih c hszc.1]
          simp only [Bool.and_self]
        · rw [hcn, if_neg hall]
          rfl

theorem cleanF_textCons_fix {s : Str} {g : HForest} (h : cleanF g = g) :
    cleanF (textCons s g) = textCons s g := by
  by_cases hs : s.isEmpty = true
  · unfold textCons
    rw [if_pos hs]
    exact h
  · cases g with
    | fnil =>
      unfold textCons
      rw [if_neg hs]
      rfl
    | fcons nd g2 =>
      cases nd with
      | htext s2 =>
        have h2 : cleanF g2 = g2 := by
          have h' : HForest.fcons (cleanN (.htext s2)) (cleanF g2) =
              .fcons (.htext s2) g2 := h
          exact (HForest.fcons.injEq _ _ _ _ ▸ h').2
        unfold textCons
        rw [if_neg hs]
        show HForest.fcons (cleanN (.htext (s ++ s2))) (cleanF g2) =
          .fcons (.htext (s ++ s2)) g2
        rw [h2]
        rfl
      | helem t a c =>
        unfold textCons
        rw [if_neg hs]
        show HForest.fcons (cleanN (.htext s))
            (cleanF (.fcons (.helem t a c) g2)) =
          .fcons (.htext s) (.fcons (.helem t a c) g2)
        rw [h]
        rfl

theorem clean_norm_fix :
    ∀ (n : Nat) (f : HForest), sizeOf f ≤ n → cleanF f = f →
      cleanF (normF f) = normF f := by
  intro n
  induction n with
  | zero =>
    intro f hsz
    exfalso
    cases f with
    | fnil => simp at hsz
    | fcons a b => simp only [HForest.fcons.sizeOf_spec] at hsz; omega
  | succ n ih =>
    intro f hsz hfix
    cases f with
    | fnil => rfl
    | fcons nd f' =>
      cases nd with
      | htext s =>
        have hsz' : sizeOf f' ≤ n := by
          simp only [HForest.fcons.sizeOf_spec, HNode.htext.sizeOf_spec] at hsz
          omega
        have hfix' : cleanF f' = f' := by
          have : HForest.fcons (cleanN (.htext s)) (cleanF f') =
              .fcons (.htext s) f' := hfix
          exact (HForest.fcons.injEq _ _ _ _ ▸ this).2
        show cleanF (textCons s (normF f')) = textCons s (normF f')
        exact cleanF_textCons_fix (ih f' hsz' hfix')
      | helem t a c =>
        have hszc : sizeOf c ≤ n ∧ sizeOf f' ≤ n := by
          simp only [HForest.fcons.sizeOf_spec, HNode.helem.sizeOf_spec] at hsz
          omega
        have hparts : cleanN (.helem t a c) = .helem t a c ∧ cleanF f' = f' := by
          have : HForest.fcons (cleanN (.helem t a c)) (cleanF f') =
              .fcons (.helem t a c) f' := hfix
          exact ⟨(HForest.fcons.injEq _ _ _ _ ▸ this).1,
                 (HForest.fcons.injEq _ _ _ _ ▸ this).2⟩
        have hnode := hparts.1
        rw [show cleanN (.helem t a c) =
            (if allowedTags.contains (lowerS t) = true then
              .helem t (a.filter (fun p => !dropAttr p.1 p.2)) (cleanF c)
            else .htext (textContentF c)) from rfl] at hnode
        by_cases hall : allowedTags.contains (lowerS t) = true
        · rw [if_pos hall] at hnode
          have hfa : a.filter (fun p => !dropAttr p.1 p.2) = a ∧ cleanF c = c := by
            have := HNode.helem.injEq t (a.filter (fun p => !dropAttr p.1 p.2))
              (cleanF c) t a c ▸ hnode
            exact ⟨this.2.1, this.2.2⟩
          show HForest.fcons (cleanN (.helem t a (normF c))) (cleanF (normF f')) =
            .fcons (.helem t a (normF c)) (normF f')
          rw [show cleanN (.helem t a (normF c)) =
              (if allowedTags.contains (lowerS t) = true then
                .helem t (a.filter (fun p => !dropAttr p.1 p.2)) (cleanF (normF c))
              else .htext (textContentF (normF c))) from rfl,
            if_pos hall, hfa.1, ih c hszc.1 hfa.2, ih f' hszc.2 hparts.2]
        · rw [if_neg hall] at hnode
          exact absurd hnode (by simp)

theorem serF_textCons (s : Str) (g : HForest) :
    serF (textCons s g) = escapeText s ++ serF g := by
  by_cases hs : s.isEmpty = true
  · unfold textCons
    rw [if_pos hs]
    rw [List.isEmpty_iff] at hs
    subst hs
    rw [escapeText_nil, List.nil_append]
  · cases g with
    | fnil =>
      unfold textCons
      rw [if_neg hs]
      rfl
    | fcons nd g2 =>
      cases nd with
      | htext s2 =>
        unfold textCons
        rw [if_neg hs]
        show escapeText (s ++ s2) ++ serF g2 =
          escapeText s ++ (escapeText s2 ++ serF g2)
        rw [escapeText_append, List.append_assoc]
      | helem t a c =>
        unfold textCons
        rw [if_neg hs]
        rfl

theorem serF_normF :
    ∀ (n : Nat) (f : HForest), sizeOf f ≤ n → serF (normF f) = serF f := by
  intro n
  induction n with
  | zero =>
    intro f hsz
    exfalso
    cases f with
    | fnil => simp at hsz
    | fcons a b => simp only [HForest.fcons.sizeOf_spec] at hsz; omega
  | succ n ih =>
    intro f hsz
    cases f with
    | fnil => rfl
    | fcons nd f' =>
      cases nd with
      | htext s =>
        have hsz' : sizeOf f' ≤ n := by
          simp only [HForest.fcons.sizeOf_spec, HNode.htext.sizeOf_spec] at hsz
          omega
        show serF (textCons s (normF f')) = serN (.htext s) ++ serF f'
        rw [serF_textCons, ih f' hsz']
        rfl
      | helem t a c =>
        have hszc : sizeOf c ≤ n ∧ sizeOf f' ≤ n := by
          simp only [HForest.fcons.sizeOf_spec, HNode.helem.sizeOf_spec] at hsz
          omega
        show serN (.helem t a (normF c)) ++ serF (normF f') =
          serN (.helem t a c) ++ serF f'
        rw [ih f' hszc.2]
        unfold serN
        by_cases hv : isVoid t = true
        · rw [if_pos hv, if_pos hv]
        · rw [if_neg hv, if_neg hv, ih c hszc.1]

theorem sanitizeHTMLL_idem (l : Str) :
    sanitizeHTMLL (sanitizeHTMLL l) = sanitizeHTMLL l := by
  unfold sanitizeHTMLL
  have hwt : wfF (cleanF (parseHTMLL l)) = true :=
    wfF_cleanF (sizeOf (parseHTMLL l)) _ (Nat.le_refl _) (parseGo_wf _ _ _ _)
  rw [parseHTMLL_serF hwt]
  rw [clean_norm_fix (sizeOf (cleanF (parseHTMLL l))) _ (Nat.le_refl _)
    (cleanF_idem (sizeOf (parseHTMLL l)) _ (Nat.le_refl _))]
  exact serF_normF (sizeOf (cleanF (parseHTMLL l))) _ (Nat.le_refl _)

/-- C3: `sanitizeHTML` is idempotent: sanitising an already-sanitised string
changes nothing. -/
theorem C3_sanitize_idempotent (s : String) :
    sanitizeHTML (sanitizeHTML s) = sanitizeHTML s := by
  show (sanitizeHTMLL ((sanitizeHTMLL s.toList).asString).toList).asString =
    (sanitizeHTMLL s.toList).asString
  rw [show ((sanitizeHTMLL s.toList).asString).toList = sanitizeHTMLL s.toList
    from rfl, sanitizeHTMLL_idem]

theorem takeWhile_all_append {α : Type} {p : α → Bool} {l : List α} (r : List α)
    (h : ∀ x ∈ l, p x = true) :
    (l ++ r).takeWhile p = l ++ r.takeWhile p := by
  rw [List.takeWhile_append]
  simp [takeWhile_eq_self h]

theorem dropWhile_all_append {α : Type} {p : α → Bool} {l : List α} (r : List α)
    (h : ∀ x ∈ l, p x = true) :
    (l ++ r).dropWhile p = r.dropWhile p := by
  induction l with
  | nil => rfl
  | cons x l' ih =>
    rw [List.cons_append, List.dropWhile_cons, h x (by simp)]
    simp only [if_true]
    exact ih (fun y hy => h y (by simp [hy]))

theorem dropWhile_head_false {α : Type} {p : α → Bool} {l t : List α} {c : α}
    (h : l.dropWhile p = c :: t) : p c = false := by
  induction l with
  | nil => simp [List.dropWhile] at h
  | cons x l' ih =>
    rw [List.dropWhile_cons] at h
    by_cases hx : p x = true
    · rw [if_pos hx] at h
      exact ih h
    · rw [if_neg hx] at h
      cases h
      simpa using hx

theorem mem_dropWhile_mem {α : Type} {p : α → Bool} {l : List α} {x : α}
    (h : x ∈ l.dropWhile p) : x ∈ l :=
  (List.dropWhile_sublist p).subset h

theorem takeWhile_append_drop {α : Type} (p : α → Bool) :
    ∀ l : List α, l.takeWhile p ++ l.drop (l.takeWhile p).length = l := by
  intro l
  induction l with
  | nil => rfl
  | cons c l' ih =>
    rw [List.takeWhile_cons]
    by_cases hc : p c = true
    · rw [if_pos hc]
      simp only [List.length_cons, List.drop_succ_cons, List.cons_append]
      rw [ih]
    · rw [if_neg hc]
      rfl

theorem matchIter_nil : matchIter [] = none := rfl

theorem matchIter_cons_ne {c : Char} {r : Str} (hc : c ≠ '|') :
    matchIter (c :: r) = none := by
  rw [matchIter.eq_def]
  split
  · rename_i r' heq
    cases heq
    exact absurd rfl hc
  · rfl

theorem matchIter_pipe_eq (r : Str) : matchIter ('|' :: r) =
    (let A := r.takeWhile (fun c => c ≠ '\n')
     let A' := (A.reverse.dropWhile jsWS).reverse
     if 2 ≤ A'.length ∧ A'.getLast? = some '|' then
       let B := r.drop A.length
       let W := ((B.takeWhile jsWS).reverse.dropWhile (fun c => c ≠ '\n')).reverse
       if W.isEmpty then none
       else some ('|' :: A ++ W, B.drop W.length)
     else none) := rfl

theorem matchIter_some_facts {s m rest : Str}
    (h : matchIter s = some (m, rest)) :
    ∃ r, s = '|' :: r ∧
      (let A := r.takeWhile (fun c => c ≠ '\n')
       let A' := (A.reverse.dropWhile jsWS).reverse
       let B := r.drop A.length
       let W := ((B.takeWhile jsWS).reverse.dropWhile (fun c => c ≠ '\n')).reverse
       (2 ≤ A'.length ∧ A'.getLast? = some '|') ∧ W ≠ [] ∧
         m = '|' :: A ++ W ∧ rest = B.drop W.length) := by
  cases s with
  | nil => exact absurd h (by simp [matchIter_nil])
  | cons c r =>
    by_cases hc : c = '|'
    · subst hc
      refine ⟨r, rfl, ?_⟩
      rw [matchIter_pipe_eq] at h
      dsimp only at h
      dsimp only
      split at h
      · rename_i hcond
        split at h
        · exact absurd h (by simp)
        · rename_i hW
          simp only [Option.some.injEq, Prod.mk.injEq] at h
          refine ⟨hcond, ?_, h.1.symm, h.2.symm⟩
          simpa [List.isEmpty_iff] using hW
      · exact absurd h (by simp)
    · rw [matchIter_cons_ne hc] at h
      exact absurd h (by simp)

theorem matchIter_anatomy {s m rest : Str}
    (h : matchIter s = some (m, rest)) :
    s = m ++ rest ∧ (∃ mm, m = '|' :: mm) ∧
    (∀ c ∈ rest.takeWhile jsWS, c ≠ '\n') ∧
    (∀ z, (∀ c ∈ z.takeWhile jsWS, c ≠ '\n') →
      matchIter (m ++ z) = some (m, z)) := by
  obtain ⟨r, rfl, hf⟩ := matchIter_some_facts h
  dsimp only at hf
  obtain ⟨hcond, hWne, hm, hrest⟩ := hf
  subst hm
  -- names for the pieces
  have hAq : ∀ x ∈ r.takeWhile (fun c => c ≠ '\n'), (x ≠ '\n') := by
    intro x hx
    have := mem_takeWhile_pred hx
    simpa using this
  have hrAB : r = r.takeWhile (fun c => c ≠ '\n') ++
      r.drop (r.takeWhile (fun c => c ≠ '\n')).length :=
    (takeWhile_append_drop _ r).symm
  have hBdw : r.drop (r.takeWhile (fun c => c ≠ '\n')).length =
      r.dropWhile (fun c => c ≠ '\n') := by
    have h1 := takeWhile_append_drop (fun c : Char => decide (c ≠ '\n')) r
    have h2 := List.takeWhile_append_dropWhile (fun c : Char => decide (c ≠ '\n')) r
    exact List.append_cancel_left (h1.trans h2.symm)
  -- decomposition of the whitespace prefix of B
  have hXsplit : ((r.drop (r.takeWhile (fun c => c ≠ '\n')).length).takeWhile
        jsWS).reverse =
      ((r.drop (r.takeWhile (fun c => c ≠ '\n')).length).takeWhile
          jsWS).reverse.takeWhile (fun c => c ≠ '\n') ++
        ((r.drop (r.takeWhile (fun c => c ≠ '\n')).length).takeWhile
          jsWS).reverse.dropWhile (fun c => c ≠ '\n') :=
    (List.takeWhile_append_dropWhile _ _).symm
  have hwsP : (r.drop (r.takeWhile (fun c => c ≠ '\n')).length).takeWhile jsWS =
      (((r.drop (r.takeWhile (fun c => c ≠ '\n')).length).takeWhile
          jsWS).reverse.dropWhile (fun c => c ≠ '\n')).reverse ++
        (((r.drop (r.takeWhile (fun c => c ≠ '\n')).length).takeWhile
          jsWS).reverse.takeWhile (fun c => c ≠ '\n')).reverse := by
    conv_lhs => rw [← List.reverse_reverse ((r.drop (r.takeWhile
      (fun c => c ≠ '\n')).length).takeWhile jsWS), hXsplit]
    rw [List.reverse_append]
  have hBsplit : r.drop (r.takeWhile (fun c => c ≠ '\n')).length =
      (((r.drop (r.takeWhile (fun c => c ≠ '\n')).length).takeWhile
          jsWS).reverse.dropWhile (fun c => c ≠ '\n')).reverse ++
        ((((r.drop (r.takeWhile (fun c => c ≠ '\n')).length).takeWhile
          jsWS).reverse.takeWhile (fun c => c ≠ '\n')).reverse ++
          (r.drop (r.takeWhile (fun c => c ≠ '\n')).length).dropWhile jsWS) := by
    conv_lhs => rw [← List.takeWhile_append_dropWhile jsWS
      (r.drop (r.takeWhile (fun c => c ≠ '\n')).length), hwsP]
    rw [List.append_assoc]
  have hgen : ∀ (B W X : Str), B = W ++ X → B.drop W.length = X := by
    intro B W X hBX
    rw [hBX]
    exact List.drop_left _ _
  have hrestEq : (r.drop (r.takeWhile (fun c => c ≠ '\n')).length).drop
      ((((r.drop (r.takeWhile (fun c => c ≠ '\n')).length).takeWhile
        jsWS).reverse.dropWhile (fun c => c ≠ '\n')).reverse).length =
      (((r.drop (r.takeWhile (fun c => c ≠ '\n')).length).takeWhile
          jsWS).reverse.takeWhile (fun c => c ≠ '\n')).reverse ++
        (r.drop (r.takeWhile (fun c => c ≠ '\n')).length).dropWhile jsWS :=
    hgen _ _ _ hBsplit
  subst hrest
  constructor
  · rw [hrestEq, List.cons_append, List.cons_append, List.append_assoc,
      ← hBsplit, ← hrAB]
  refine ⟨⟨_, rfl⟩, ?_, ?_⟩
  · -- leading whitespace of rest contains no newline
    intro c hc
    rw [hrestEq] at hc
    have hTall : ∀ x ∈ (((r.drop (r.takeWhile (fun c => c ≠ '\n')).length).takeWhile
        jsWS).reverse.takeWhile (fun c => c ≠ '\n')).reverse, jsWS x = true := by
      intro x hx
      rw [List.mem_reverse] at hx
      have hx2 := (List.takeWhile_sublist _).subset hx
      rw [List.mem_reverse] at hx2
      exact mem_takeWhile_pred hx2
    rw [takeWhile_all_append _ hTall] at hc
    have hDtW : ((r.drop (r.takeWhile (fun c => c ≠ '\n')).length).dropWhile
        jsWS).takeWhile jsWS = [] := by
      cases hD : (r.drop (r.takeWhile (fun c => c ≠ '\n')).length).dropWhile jsWS with
      | nil => rfl
      | cons d D' => exact takeWhile_nil_of_head (dropWhile_head_false hD)
    rw [hDtW, List.append_nil, List.mem_reverse] at hc
    have := mem_takeWhile_pred hc
    simpa using this
  · -- refire
    intro z hz
    -- head of W is a newline
    obtain ⟨w0, W2, hW0⟩ : ∃ w0 W2,
        (((r.drop (r.takeWhile (fun c => c ≠ '\n')).length).takeWhile
          jsWS).reverse.dropWhile (fun c => c ≠ '\n')).reverse = w0 :: W2 := by
      cases hW : (((r.drop (r.takeWhile (fun c => c ≠ '\n')).length).takeWhile
          jsWS).reverse.dropWhile (fun c => c ≠ '\n')).reverse with
      | nil => exact absurd hW hWne
      | cons w0 W2 => exact ⟨w0, W2, rfl⟩
    have hw0 : w0 = '\n' := by
      have hBhead : r.dropWhile (fun c => c ≠ '\n') = w0 :: (W2 ++
          ((((r.drop (r.takeWhile (fun c => c ≠ '\n')).length).takeWhile
            jsWS).reverse.takeWhile (fun c => c ≠ '\n')).reverse ++
            (r.drop (r.takeWhile (fun c => c ≠ '\n')).length).dropWhile jsWS)) := by
        conv_lhs => rw [← hBdw, hBsplit, hW0]
        rw [List.cons_append]
      have := dropWhile_head_false hBhead
      simpa using this
    -- W consists of whitespace
    have hWall : ∀ x ∈ (((r.drop (r.takeWhile (fun c => c ≠ '\n')).length).takeWhile
        jsWS).reverse.dropWhile (fun c => c ≠ '\n')).reverse, jsWS x = true := by
      intro x hx
      rw [List.mem_reverse] at hx
      have hx2 := mem_dropWhile_mem hx
      rw [List.mem_reverse] at hx2
      exact mem_takeWhile_pred hx2
    -- the reverse of W starts with a newline
    obtain ⟨W3, hWrev⟩ : ∃ W3,
        ((r.drop (r.takeWhile (fun c => c ≠ '\n')).length).takeWhile
          jsWS).reverse.dropWhile (fun c => c ≠ '\n') = '\n' :: W3 := by
      cases hW : ((r.drop (r.takeWhile (fun c => c ≠ '\n')).length).takeWhile
          jsWS).reverse.dropWhile (fun c => c ≠ '\n') with
      | nil =>
        exfalso
        apply hWne
        rw [hW]
        rfl
      | cons d W3 =>
        have := dropWhile_head_false hW
        simp only [decide_eq_false_iff_not, not_not] at this
        subst this
        exact ⟨W3, rfl⟩
    -- now compute the rematch
    rw [List.cons_append, List.cons_append, List.append_assoc]
    rw [matchIter_pipe_eq]
    dsimp only
    have hAnew : (r.takeWhile (fun c => c ≠ '\n') ++
        ((((r.drop (r.takeWhile (fun c => c ≠ '\n')).length).takeWhile
          jsWS).reverse.dropWhile (fun c => c ≠ '\n')).reverse ++ z)).takeWhile
        (fun c => c ≠ '\n') = r.takeWhile (fun c => c ≠ '\n') := by
      refine takeWhile_append_eq ?_ ?_
      · intro x hx
        have hpx := mem_takeWhile_pred hx
        exact hpx
      · rw [hW0, hw0, List.cons_append]
        exact takeWhile_nil_of_head (by simp)
    rw [hAnew, List.drop_left]
    rw [if_pos hcond]
    have hwsNew : ((((r.drop (r.takeWhile (fun c => c ≠ '\n')).length).takeWhile
        jsWS).reverse.dropWhile (fun c => c ≠ '\n')).reverse ++ z).takeWhile jsWS =
        (((r.drop (r.takeWhile (fun c => c ≠ '\n')).length).takeWhile
          jsWS).reverse.dropWhile (fun c => c ≠ '\n')).reverse ++
          z.takeWhile jsWS :=
      takeWhile_all_append _ hWall
    rw [hwsNew]
    rw [List.reverse_append]
    rw [List.reverse_reverse]
    have hzall : ∀ x ∈ (z.takeWhile jsWS).reverse, (fun c => decide (c ≠ '\n')) x = true := by
      intro x hx
      rw [List.mem_reverse] at hx
      simpa using hz x hx
    rw [dropWhile_all_append _ hzall, hWrev]
    rw [show ('\n' :: W3).dropWhile (fun c => c ≠ '\n') = '\n' :: W3 from
      List.dropWhile_cons_of_neg (by simp)]
    rw [← hWrev]
    rw [if_neg (by simpa [List.isEmpty_iff] using hWne)]
    rw [List.drop_left]
    rfl

theorem blockIter_zero (s : Str) : blockIter 0 s = ([], s) := rfl

theorem blockIter_succ_none {fuel : Nat} {s : Str} (h : matchIter s = none) :
    blockIter (fuel + 1) s = ([], s) := by
  unfold blockIter
  rw [h]

theorem blockIter_succ_some {fuel : Nat} {s m r : Str}
    (h : matchIter s = some (m, r)) :
    blockIter (fuel + 1) s =
      (m ++ (blockIter fuel r).1, (blockIter fuel r).2) := by
  have he : blockIter (fuel + 1) s =
      (match matchIter s with
       | none => ([], s)
       | some (b, r) => (b ++ (blockIter fuel r).1, (blockIter fuel r).2)) := rfl
  rw [he, h]

theorem blockIter_end :
    ∀ (fuel : Nat) (r b rest : Str), r.length ≤ fuel →
      blockIter fuel r = (b, rest) → matchIter rest = none := by
  intro fuel
  induction fuel with
  | zero =>
    intro r b rest hlen h
    have hr : r = [] := List.length_eq_zero.mp (Nat.le_zero.mp hlen)
    subst hr
    rw [blockIter_zero] at h
    cases h
    exact matchIter_nil
  | succ g ih =>
    intro r b rest hlen h
    cases hmi : matchIter r with
    | none =>
      rw [blockIter_succ_none hmi] at h
      cases h
      exact hmi
    | some p =>
      obtain ⟨m, r2⟩ := p
      rw [blockIter_succ_some hmi] at h
      have hsplit := (matchIter_anatomy hmi).1
      obtain ⟨mm, hmm⟩ := (matchIter_anatomy hmi).2.1
      have hr2 : r2.length ≤ g := by
        have : r.length = m.length + r2.length := by
          rw [hsplit, List.length_append]
        subst hmm
        simp only [List.length_cons] at this
        omega
      cases hb : blockIter g r2 with
      | mk b2 rest2 =>
        rw [hb] at h
        cases h
        exact ih r2 b2 rest2 hr2 hb

theorem blockIter_split :
    ∀ (fuel : Nat) (r b rest : Str),
      blockIter fuel r = (b, rest) → r = b ++ rest := by
  intro fuel
  induction fuel with
  | zero =>
    intro r b rest h
    rw [blockIter_zero] at h
    cases h
    rfl
  | succ g ih =>
    intro r b rest h
    cases hmi : matchIter r with
    | none =>
      rw [blockIter_succ_none hmi] at h
      cases h
      rfl
    | some p =>
      obtain ⟨m, r2⟩ := p
      rw [blockIter_succ_some hmi] at h
      cases hb : blockIter g r2 with
      | mk b2 rest2 =>
        rw [hb] at h
        cases h
        rw [(matchIter_anatomy hmi).1, ih r2 b2 rest2 hb, List.append_assoc]

theorem blockIter_rest_noNl :
    ∀ (fuel : Nat) (r b rest : Str),
      blockIter fuel r = (b, rest) →
      (∀ c ∈ r.takeWhile jsWS, c ≠ '\n') →
      ∀ c ∈ rest.takeWhile jsWS, c ≠ '\n' := by
  intro fuel
  induction fuel with
  | zero =>
    intro r b rest h hr
    rw [blockIter_zero] at h
    cases h
    exact hr
  | succ g ih =>
    intro r b rest h hr
    cases hmi : matchIter r with
    | none =>
      rw [blockIter_succ_none hmi] at h
      cases h
      exact hr
    | some p =>
      obtain ⟨m, r2⟩ := p
      rw [blockIter_succ_some hmi] at h
      cases hb : blockIter g r2 with
      | mk b2 rest2 =>
        rw [hb] at h
        cases h
        exact ih r2 b2 rest2 hb (matchIter_anatomy hmi).2.2.1

theorem blockIter_head :
    ∀ (fuel : Nat) (r b rest : Str),
      blockIter fuel r = (b, rest) → b = [] ∨ ∃ t, b = '|' :: t := by
  intro fuel
  induction fuel with
  | zero =>
    intro r b rest h
    rw [blockIter_zero] at h
    cases h
    exact Or.inl rfl
  | succ g ih =>
    intro r b rest h
    cases hmi : matchIter r with
    | none =>
      rw [blockIter_succ_none hmi] at h
      cases h
      exact Or.inl rfl
    | some p =>
      obtain ⟨m, r2⟩ := p
      rw [blockIter_succ_some hmi] at h
      cases hb : blockIter g r2 with
      | mk b2 rest2 =>
        rw [hb] at h
        cases h
        obtain ⟨mm, hmm⟩ := (matchIter_anatomy hmi).2.1
        subst hmm
        exact Or.inr ⟨mm ++ b2, by simp⟩

theorem blockIter_refire :
    ∀ (fuel : Nat) (r b rest : Str),
      blockIter fuel r = (b, rest) → matchIter rest = none →
      ∀ (z : Str) (fuel2 : Nat),
        (∀ c ∈ z.takeWhile jsWS, c ≠ '\n') → matchIter z = none →
        b.length ≤ fuel2 →
        blockIter fuel2 (b ++ z) = (b, z) := by
  intro fuel
  induction fuel with
  | zero =>
    intro r b rest h hrest z fuel2 hz hzn hf
    rw [blockIter_zero] at h
    cases h
    cases fuel2 with
    | zero => exact blockIter_zero z
    | succ g2 => exact blockIter_succ_none hzn
  | succ g ih =>
    intro r b rest h hrest z fuel2 hz hzn hf
    cases hmi : matchIter r with
    | none =>
      rw [blockIter_succ_none hmi] at h
      cases h
      cases fuel2 with
      | zero => exact blockIter_zero z
      | succ g2 => exact blockIter_succ_none hzn
    | some p =>
      obtain ⟨m, r2⟩ := p
      rw [blockIter_succ_some hmi] at h
      cases hb : blockIter g r2 with
      | mk b2 rest2 =>
        rw [hb] at h
        cases h
        obtain ⟨mm, hmm⟩ := (matchIter_anatomy hmi).2.1
        have hb2z : ∀ c ∈ (b2 ++ z).takeWhile jsWS, c ≠ '\n' := by
          rcases blockIter_head g r2 b2 rest2 hb with hb2 | ⟨t, hb2⟩
          · subst hb2
            simpa using hz
          · subst hb2
            intro c hc
            rw [List.cons_append, takeWhile_nil_of_head (by decide)] at hc
            simp at hc
        have hmz : matchIter (m ++ (b2 ++ z)) = some (m, b2 ++ z) :=
          (matchIter_anatomy hmi).2.2.2 (b2 ++ z) hb2z
        obtain ⟨g2, hg2⟩ : ∃ g2, fuel2 = g2 + 1 := by
          refine ⟨fuel2 - 1, ?_⟩
          subst hmm
          simp only [List.length_append, List.length_cons] at hf
          omega
        subst hg2
        rw [List.append_assoc, blockIter_succ_some hmz,
          ih r2 b2 rest2 hb hrest z g2 hz hzn (by
            subst hmm
            simp only [List.length_append, List.length_cons] at hf
            omega)]

theorem blockParse_none_iff {s : Str} :
    blockParse s = none ↔ matchIter s = none := by
  unfold blockParse
  cases hmi : matchIter s with
  | none => simp
  | some p =>
    obtain ⟨m, r⟩ := p
    simp

theorem blockParse_some_facts {s b rest : Str}
    (h : blockParse s = some (b, rest)) :
    s = b ++ rest ∧ (∃ t, b = '|' :: t) ∧ matchIter rest = none ∧
      (∀ c ∈ rest.takeWhile jsWS, c ≠ '\n') ∧
      (∀ (z : Str), (∀ c ∈ z.takeWhile jsWS, c ≠ '\n') → matchIter z = none →
        blockParse (b ++ z) = some (b, z)) := by
  unfold blockParse at h
  cases hmi : matchIter s with
  | none => rw [hmi] at h; exact absurd h (by simp)
  | some p =>
    obtain ⟨m, r2⟩ := p
    rw [hmi] at h
    dsimp only at h
    cases hb : blockIter r2.length r2 with
    | mk b2 rest2 =>
      rw [hb] at h
      simp only [Option.some.injEq, Prod.mk.injEq] at h
      obtain ⟨hbm, hrest⟩ := h
      subst hbm
      subst hrest
      have hrn : matchIter rest2 = none :=
        blockIter_end r2.length r2 b2 rest2 (Nat.le_refl _) hb
      have hnl : ∀ c ∈ rest2.takeWhile jsWS, c ≠ '\n' :=
        blockIter_rest_noNl r2.length r2 b2 rest2 hb (matchIter_anatomy hmi).2.2.1
      obtain ⟨mm, hmm⟩ := (matchIter_anatomy hmi).2.1
      refine ⟨?_, ⟨mm ++ b2, by simp [hmm]⟩, hrn, hnl, ?_⟩
      · rw [(matchIter_anatomy hmi).1, blockIter_split r2.length r2 b2 rest2 hb,
          List.append_assoc]
      · intro z hz hzn
        have hb2z : ∀ c ∈ (b2 ++ z).takeWhile jsWS, c ≠ '\n' := by
          rcases blockIter_head r2.length r2 b2 rest2 hb with hb2 | ⟨t, hb2⟩
          · subst hb2
            simpa using hz
          · subst hb2
            intro c hc
            rw [List.cons_append, takeWhile_nil_of_head (by decide)] at hc
            simp at hc
        have hmz : matchIter (m ++ (b2 ++ z)) = some (m, b2 ++ z) :=
          (matchIter_anatomy hmi).2.2.2 (b2 ++ z) hb2z
        unfold blockParse
        rw [List.append_assoc, hmz]
        dsimp only
        rw [blockIter_refire r2.length r2 b2 rest2 hb hrn z (b2 ++ z).length hz hzn
          (by simp)]

theorem mkTableHtml_nl (lines : List Str) (sep : Nat) :
    ∃ t, mkTableHtml lines sep = '\n' :: t := by
  refine ⟨"<table class=\"markdown-table\">\n<thead>\n".toList ++
      rowsHtml "th".toList (parseAlignment (lines.getD sep [])) (lines.take sep) ++
      "</thead>\n".toList ++
      (if sep < lines.length - 1 then
        "<tbody>\n".toList ++ rowsHtml "td".toList (parseAlignment (lines.getD sep []))
          (lines.drop (sep + 1)) ++ "</tbody>\n".toList
       else []) ++
      "</table>\n".toList, ?_⟩
  unfold mkTableHtml
  rfl

theorem nlRepl_nl (b : Str) : ∃ t, nlRepl b = '\n' :: t := by
  unfold nlRepl
  by_cases hacc : tableAccept b = true
  · rw [if_pos hacc]
    unfold tableAccept at hacc
    simp only [Bool.and_eq_true, decide_eq_true_eq] at hacc
    obtain ⟨hlen, hfind⟩ := hacc
    unfold processBlock
    rw [if_neg (by omega)]
    cases hIdx : List.findIdx? isSeparatorRow (linesOf b) with
    | none => rw [hIdx] at hfind; simp at hfind
    | some k =>
      rw [hIdx] at hfind
      cases k with
      | zero => simp at hfind
      | succ k2 =>
        show ∃ t, mkTableHtml (linesOf b) (k2 + 1) = '\n' :: t
        exact mkTableHtml_nl _ _
  · rw [if_neg hacc]
    exact ⟨b, rfl⟩

theorem tgo_zero (s : Str) : tgo 0 s = s := by cases s <;> rfl

theorem tgo_nil (fuel : Nat) : tgo fuel [] = [] := by
  cases fuel <;> rfl

theorem tgo_nl_eq (fuel : Nat) (r : Str) : tgo (fuel + 1) ('\n' :: r) =
    (match blockParse r with
     | some (b, rest) => nlRepl b ++ tgo fuel rest
     | none => '\n' :: tgo fuel r) := rfl

theorem tgo_nl_some {r b rest : Str} (fuel : Nat)
    (h : blockParse r = some (b, rest)) :
    tgo (fuel + 1) ('\n' :: r) = nlRepl b ++ tgo fuel rest := by
  rw [tgo_nl_eq, h]

theorem tgo_nl_none {r : Str} (fuel : Nat) (h : blockParse r = none) :
    tgo (fuel + 1) ('\n' :: r) = '\n' :: tgo fuel r := by
  rw [tgo_nl_eq, h]

theorem tgo_cons_ne {c : Char} {r : Str} (fuel : Nat) (hc : c ≠ '\n') :
    tgo (fuel + 1) (c :: r) = c :: tgo fuel r := by
  rw [tgo.eq_def]
  split <;> simp_all

theorem tgo_no_nl : ∀ (s : Str) (fuel : Nat), (∀ ch ∈ s, ch ≠ '\n') →
    tgo fuel s = s := by
  intro s
  induction s with
  | nil => intro fuel _; exact tgo_nil fuel
  | cons c r ih =>
    intro fuel h
    cases fuel with
    | zero => exact tgo_zero _
    | succ g =>
      rw [tgo_cons_ne g (h c (by simp))]
      rw [ih g (fun ch hch => h ch (by simp [hch]))]

theorem tgo_firstLine : ∀ (fuel : Nat) (s : Str),
    (tgo fuel s).takeWhile (fun c => c ≠ '\n') =
      s.takeWhile (fun c => c ≠ '\n') := by
  intro fuel
  induction fuel with
  | zero => intro s; rw [tgo_zero]
  | succ g ih =>
    intro s
    cases s with
    | nil => rw [tgo_nil]
    | cons c r =>
      by_cases hc : c = '\n'
      · subst hc
        cases hbp : blockParse r with
        | none =>
          rw [tgo_nl_none g hbp, takeWhile_nil_of_head (by decide),
            takeWhile_nil_of_head (by decide)]
        | some p =>
          obtain ⟨b, rest⟩ := p
          rw [tgo_nl_some g hbp]
          obtain ⟨t, ht⟩ : ∃ t, nlRepl b = '\n' :: t := nlRepl_nl b
          rw [ht, List.cons_append, takeWhile_nil_of_head (by decide),
            takeWhile_nil_of_head (by decide)]
      · rw [tgo_cons_ne g hc, List.takeWhile_cons, List.takeWhile_cons]
        by_cases hq : (c ≠ '\n')
        · rw [if_pos (by simpa using hq), if_pos (by simpa using hq), ih r]
        · exact absurd hc (by simpa using hq)

theorem matchIter_none_tgo {s : Str} (hn : matchIter s = none) :
    ∀ fuel, matchIter (tgo fuel s) = none := by
  intro fuel
  cases s with
  | nil => rw [tgo_nil]; exact matchIter_nil
  | cons c r =>
    cases fuel with
    | zero => exact hn
    | succ g =>
      by_cases hc : c = '\n'
      · subst hc
        cases hbp : blockParse r with
        | none =>
          rw [tgo_nl_none g hbp]
          exact matchIter_cons_ne (by decide)
        | some p =>
          obtain ⟨b, rest⟩ := p
          rw [tgo_nl_some g hbp]
          obtain ⟨t, ht⟩ : ∃ t, nlRepl b = '\n' :: t := nlRepl_nl b
          rw [ht, List.cons_append]
          exact matchIter_cons_ne (by decide)
      · by_cases hp : c = '|'
        · subst hp
          rw [tgo_cons_ne g hc]
          rw [matchIter_pipe_eq] at hn
          dsimp only at hn
          rw [matchIter_pipe_eq]
          dsimp only
          rw [tgo_firstLine g r]
          split at hn
          · rename_i hcond
            rw [if_pos hcond]
            split at hn
            · rename_i hW
              -- the whitespace after the first line holds no newline: the
              -- block line is the whole string and tgo leaves it unchanged
              have hwsq : ∀ x ∈ ((r.drop (r.takeWhile
                  (fun c => c ≠ '\n')).length).takeWhile jsWS).reverse,
                  (fun c => decide (c ≠ '\n')) x = true := by
                have h0 : (((r.drop (r.takeWhile (fun c => c ≠ '\n')).length).takeWhile
                    jsWS).reverse).dropWhile (fun c => c ≠ '\n') = [] := by
                  have := List.isEmpty_iff.mp hW
                  simpa [List.reverse_eq_nil_iff] using this
                exact fun x hx => List.dropWhile_eq_nil_iff.mp h0 x hx
              have hB : r.drop (r.takeWhile (fun c => c ≠ '\n')).length = [] := by
                have hBdw : r.drop (r.takeWhile (fun c => c ≠ '\n')).length =
                    r.dropWhile (fun c => c ≠ '\n') := by
                  have h1 := takeWhile_append_drop (fun c : Char => decide (c ≠ '\n')) r
                  have h2 := List.takeWhile_append_dropWhile
                    (fun c : Char => decide (c ≠ '\n')) r
                  exact List.append_cancel_left (h1.trans h2.symm)
                cases hBc : r.drop (r.takeWhile (fun c => c ≠ '\n')).length with
                | nil => rfl
                | cons d D =>
                  exfalso
                  have hd : d = '\n' := by
                    have := dropWhile_head_false (hBdw ▸ hBc :
                      r.dropWhile (fun c => c ≠ '\n') = d :: D)
                    simpa using this
                  subst hd
                  have hmem : '\n' ∈ ((r.drop (r.takeWhile
                      (fun c => c ≠ '\n')).length).takeWhile jsWS).reverse := by
                    rw [hBc, List.mem_reverse]
                    rw [List.takeWhile_cons, if_pos (show jsWS '\n' = true by decide)]
                    simp
                  have := hwsq '\n' hmem
                  simp at this
              have hrA : r = r.takeWhile (fun c => c ≠ '\n') := by
                conv_lhs => rw [← takeWhile_append_drop
                  (fun c : Char => decide (c ≠ '\n')) r]
                rw [hB, List.append_nil]
              have hrnl : ∀ ch ∈ r, ch ≠ '\n' := by
                intro ch hch
                rw [hrA] at hch
                have := mem_takeWhile_pred hch
                simpa using this
              rw [tgo_no_nl r g hrnl]
              rw [if_pos hW]
            · rename_i hW
              exact absurd hn (by simp)
          · rename_i hcond
            rw [if_neg hcond]
        · rw [tgo_cons_ne g hc]
          exact matchIter_cons_ne hp

theorem tgo_leadWs : ∀ (fuel : Nat) (s : Str),
    (∀ c ∈ s.takeWhile jsWS, c ≠ '\n') →
    ∀ c ∈ (tgo fuel s).takeWhile jsWS, c ≠ '\n' := by
  intro fuel
  induction fuel with
  | zero => intro s h; rw [tgo_zero]; exact h
  | succ g ih =>
    intro s h
    cases s with
    | nil => rw [tgo_nil]; exact h
    | cons c r =>
      by_cases hw : jsWS c = true
      · have hc : c ≠ '\n' := by
          apply h
          rw [List.takeWhile_cons, if_pos hw]
          simp
        rw [tgo_cons_ne g hc, List.takeWhile_cons, if_pos hw]
        intro x hx
        rcases List.mem_cons.mp hx with hx | hx
        · subst hx; exact hc
        · refine ih r ?_ x hx
          intro y hy
          apply h
          rw [List.takeWhile_cons, if_pos hw]
          simp [hy]
      · by_cases hc : c = '\n'
        · subst hc
          exact absurd (by decide) hw
        · rw [tgo_cons_ne g hc, List.takeWhile_cons, if_neg hw]
          intro x hx
          simp at hx

theorem nlSafe_nil : nlSafe [] = true := rfl

theorem nlSafe_nl_cons (c : Char) (r : Str) :
    nlSafe ('\n' :: c :: r) = (decide (c ≠ '|') && nlSafe (c :: r)) := rfl

theorem nlSafe_cons_ne {c : Char} (r : Str) (hc : c ≠ '\n') :
    nlSafe (c :: r) = nlSafe r := by
  rw [nlSafe.eq_def]
  split <;> simp_all

theorem nlSafe_of_no_pipe : ∀ (x : Str), (∀ ch ∈ x, ch ≠ '|') →
    nlSafe x = true := by
  intro x
  induction x with
  | nil => intro _; rfl
  | cons c r ih =>
    intro h
    by_cases hc : c = '\n'
    · subst hc
      cases r with
      | nil => rfl
      | cons d r' =>
        rw [nlSafe_nl_cons]
        simp only [Bool.and_eq_true, decide_eq_true_eq]
        exact ⟨h d (by simp), ih (fun ch hch => h ch (by simp [hch]))⟩
    · rw [nlSafe_cons_ne r hc]
      exact ih (fun ch hch => h ch (by simp [hch]))

theorem tgo_walk : ∀ (h : Str) (fuel : Nat) (z : Str),
    nlSafe h = true → matchIter z = none → h.length ≤ fuel →
    tgo fuel (h ++ z) = h ++ tgo (fuel - h.length) z := by
  intro h
  induction h with
  | nil =>
    intro fuel z _ _ _
    simp
  | cons c h' ih =>
    intro fuel z hs hz hlen
    obtain ⟨g, rfl⟩ : ∃ g, fuel = g + 1 := by
      refine ⟨fuel - 1, ?_⟩
      simp only [List.length_cons] at hlen
      omega
    by_cases hc : c = '\n'
    · subst hc
      cases h' with
      | nil =>
        rw [List.cons_append, List.nil_append, tgo_nl_none g (blockParse_none_iff.mpr hz)]
        simp
      | cons d h'' =>
        rw [nlSafe_nl_cons] at hs
        simp only [Bool.and_eq_true, decide_eq_true_eq] at hs
        have hbp : blockParse ((d :: h'') ++ z) = none := by
          rw [List.cons_append]
          exact blockParse_none_iff.mpr (matchIter_cons_ne hs.1)
        rw [List.cons_append, tgo_nl_none g hbp]
        rw [ih g z hs.2 hz (by simp only [List.length_cons] at hlen ⊢; omega)]
        have hfl : g + 1 - ('\n' :: d :: h'').length = g - (d :: h'').length := by
          simp only [List.length_cons]
          omega
        rw [hfl, List.cons_append]
        rfl
    · rw [List.cons_append, tgo_cons_ne g hc,
        ih g z (by rw [← nlSafe_cons_ne h' hc]; exact hs) hz
          (by simp only [List.length_cons] at hlen ⊢; omega)]
      have hfl : g + 1 - (c :: h').length = g - h'.length := by
        simp only [List.length_cons]
        omega
      rw [hfl, List.cons_append]

theorem np_append {x y : Str} (hx : ∀ ch ∈ x, ch ≠ '|') (hy : ∀ ch ∈ y, ch ≠ '|') :
    ∀ ch ∈ x ++ y, ch ≠ '|' := by
  intro ch hch
  rcases List.mem_append.mp hch with h | h
  · exact hx ch h
  · exact hy ch h

theorem np_cons {c : Char} {r : Str} (hc : c ≠ '|') (hr : ∀ ch ∈ r, ch ≠ '|') :
    ∀ ch ∈ c :: r, ch ≠ '|' := by
  intro ch hch
  rcases List.mem_cons.mp hch with h | h
  · subst h; exact hc
  · exact hr ch h

theorem splitOnC_not_mem (sep : Char) :
    ∀ (s : Str) (p : Str), p ∈ splitOnC sep s → sep ∉ p := by
  intro s
  induction s with
  | nil =>
    intro p hp
    simp only [splitOnC, List.mem_singleton] at hp
    subst hp
    simp
  | cons c r ih =>
    intro p hp
    unfold splitOnC at hp
    by_cases hc : c = sep
    · rw [if_pos hc] at hp
      rcases List.mem_cons.mp hp with h | h
      · subst h; simp
      · exact ih p h
    · rw [if_neg hc] at hp
      cases hsp : splitOnC sep r with
      | nil =>
        rw [hsp] at hp
        simp only [List.mem_singleton] at hp
        subst hp
        intro hmem
        rcases List.mem_singleton.mp hmem
        exact hc rfl
      | cons h t =>
        rw [hsp] at hp
        rcases List.mem_cons.mp hp with hp | hp
        · subst hp
          intro hmem
          rcases List.mem_cons.mp hmem with hm | hm
          · exact hc hm.symm
          · exact ih h (by rw [hsp]; simp) hm
        · exact ih p (by rw [hsp]; simp [hp])

theorem jsTrim_mem {s : Str} {ch : Char} (h : ch ∈ jsTrim s) : ch ∈ s := by
  unfold jsTrim rstrip lstrip at h
  rw [List.mem_reverse] at h
  have h2 := mem_dropWhile_mem h
  rw [List.mem_reverse] at h2
  exact mem_dropWhile_mem h2

theorem parseTableRow_no_pipe (line : Str) :
    ∀ cell ∈ parseTableRow line, ∀ ch ∈ cell, ch ≠ '|' := by
  intro cell hcell ch hch
  unfold parseTableRow at hcell
  rcases List.mem_map.mp hcell with ⟨p, hp, rfl⟩
  have hmem := jsTrim_mem hch
  have hnp := splitOnC_not_mem '|' _ p hp
  intro hcontra
  subst hcontra
  exact hnp hmem

theorem alignOf_no_pipe (cell : Str) : ∀ ch ∈ alignOf cell, ch ≠ '|' := by
  unfold alignOf
  dsimp only
  split
  · decide
  · split
    · decide
    · decide

theorem parseAlignment_no_pipe (line : Str) :
    ∀ a ∈ parseAlignment line, ∀ ch ∈ a, ch ≠ '|' := by
  intro a ha
  unfold parseAlignment at ha
  rcases List.mem_map.mp ha with ⟨cell, _, rfl⟩
  exact alignOf_no_pipe cell

theorem getD_pred {α : Type} {P : α → Prop} :
    ∀ (l : List α) (i : Nat) (d : α), (∀ a ∈ l, P a) → P d → P (l.getD i d) := by
  intro l
  induction l with
  | nil => intro i d _ hd; cases i <;> exact hd
  | cons a l' ih =>
    intro i d hl hd
    cases i with
    | zero => exact hl a (by simp)
    | succ j => exact ih j d (fun x hx => hl x (by simp [hx])) hd

theorem cellsHtml_no_pipe (tag : Str) (aligns : List Str)
    (htag : ∀ ch ∈ tag, ch ≠ '|')
    (hal : ∀ a ∈ aligns, ∀ ch ∈ a, ch ≠ '|') :
    ∀ (cells : List Str) (i : Nat),
      (∀ cell ∈ cells, ∀ ch ∈ cell, ch ≠ '|') →
      ∀ ch ∈ cellsHtml tag aligns cells i, ch ≠ '|' := by
  intro cells
  induction cells with
  | nil => intro i _ ch hch; simp [cellsHtml] at hch
  | cons c rest ih =>
    intro i hcells
    show ∀ ch ∈ '<' :: tag ++ " style=\"text-align:".toList ++
      aligns.getD i "left".toList ++ "\">".toList ++ c ++ "</".toList ++ tag ++
      ">\n".toList ++ cellsHtml tag aligns rest (i + 1), ch ≠ '|'
    refine np_append (np_append (np_append (np_append (np_append (np_append
      (np_append (np_append (np_cons (by decide) htag) (by decide)) ?_)
      (by decide)) (hcells c (by simp))) (by decide)) htag) (by decide))
      (ih (i + 1) (fun x hx => hcells x (by simp [hx])))
    exact getD_pred aligns i _ hal (by decide)

theorem rowsHtml_no_pipe (tag : Str) (aligns : List Str)
    (htag : ∀ ch ∈ tag, ch ≠ '|')
    (hal : ∀ a ∈ aligns, ∀ ch ∈ a, ch ≠ '|') :
    ∀ (rows : List Str), ∀ ch ∈ rowsHtml tag aligns rows, ch ≠ '|' := by
  intro rows
  induction rows with
  | nil => intro ch hch; simp [rowsHtml] at hch
  | cons line rest ih =>
    show ∀ ch ∈ "<tr>\n".toList ++ cellsHtml tag aligns (parseTableRow line) 0 ++
      "</tr>\n".toList ++ rowsHtml tag aligns rest, ch ≠ '|'
    exact np_append (np_append (np_append (by decide)
      (cellsHtml_no_pipe tag aligns htag hal (parseTableRow line) 0
        (parseTableRow_no_pipe line))) (by decide)) ih

theorem mkTableHtml_no_pipe (lines : List Str) (sep : Nat) :
    ∀ ch ∈ mkTableHtml lines sep, ch ≠ '|' := by
  have hal := parseAlignment_no_pipe (lines.getD sep [])
  show ∀ ch ∈ "\n<table class=\"markdown-table\">\n<thead>\n".toList ++
    rowsHtml "th".toList (parseAlignment (lines.getD sep [])) (lines.take sep) ++
    "</thead>\n".toList ++
    (if sep < lines.length - 1 then
      "<tbody>\n".toList ++ rowsHtml "td".toList
        (parseAlignment (lines.getD sep [])) (lines.drop (sep + 1)) ++
        "</tbody>\n".toList
     else []) ++
    "</table>\n".toList, ch ≠ '|'
  refine np_append (np_append (np_append (np_append (by decide)
    (rowsHtml_no_pipe _ _ (by decide) hal _)) (by decide)) ?_) (by decide)
  by_cases hif : sep < lines.length - 1
  · rw [if_pos hif]
    exact np_append (np_append (by decide)
      (rowsHtml_no_pipe _ _ (by decide) hal _)) (by decide)
  · rw [if_neg hif]
    intro ch hch
    simp at hch

theorem nlRepl_nlSafe_accept {b : Str} (hacc : tableAccept b = true) :
    nlSafe (nlRepl b) = true := by
  unfold nlRepl
  rw [if_pos hacc]
  unfold tableAccept at hacc
  simp only [Bool.and_eq_true, decide_eq_true_eq] at hacc
  obtain ⟨hlen, hfind⟩ := hacc
  unfold processBlock
  rw [if_neg (by omega)]
  cases hIdx : List.findIdx? isSeparatorRow (linesOf b) with
  | none => rw [hIdx] at hfind; simp at hfind
  | some k =>
    rw [hIdx] at hfind
    cases k with
    | zero => simp at hfind
    | succ k2 =>
      show nlSafe (mkTableHtml (linesOf b) (k2 + 1)) = true
      exact nlSafe_of_no_pipe _ (mkTableHtml_no_pipe _ _)

theorem tgoIdem : ∀ (n : Nat) (s : Str) (f1 f2 : Nat), s.length ≤ n →
    s.length ≤ f1 → (tgo f1 s).length ≤ f2 → tgo f2 (tgo f1 s) = tgo f1 s := by
  intro n
  induction n with
  | zero =>
    intro s f1 f2 hn _ _
    have hs : s = [] := List.length_eq_zero.mp (Nat.le_zero.mp hn)
    subst hs
    rw [tgo_nil, tgo_nil]
  | succ n ih =>
    intro s f1 f2 hn hf1 hf2
    cases s with
    | nil => rw [tgo_nil, tgo_nil]
    | cons c r =>
      obtain ⟨g1, rfl⟩ : ∃ g1, f1 = g1 + 1 := by
        refine ⟨f1 - 1, ?_⟩
        simp only [List.length_cons] at hf1
        omega
      by_cases hc : c = '\n'
      · subst hc
        cases hbp : blockParse r with
        | none =>
          rw [tgo_nl_none g1 hbp] at hf2 ⊢
          obtain ⟨g2, rfl⟩ : ∃ g2, f2 = g2 + 1 := by
            refine ⟨f2 - 1, ?_⟩
            simp only [List.length_cons] at hf2
            omega
          have hbp2 : blockParse (tgo g1 r) = none :=
            blockParse_none_iff.mpr
              (matchIter_none_tgo (blockParse_none_iff.mp hbp) g1)
          rw [tgo_nl_none g2 hbp2]
          congr 1
          refine ih r g1 g2 ?_ ?_ ?_
          · simp only [List.length_cons] at hn; omega
          · simp only [List.length_cons] at hf1; omega
          · simp only [List.length_cons] at hf2; omega
        | some p =>
          obtain ⟨b, rest⟩ := p
          obtain ⟨hsplit, ⟨t, hbt⟩, hmn, hnl, hrefire⟩ := blockParse_some_facts hbp
          rw [tgo_nl_some g1 hbp] at hf2 ⊢
          have hzn : matchIter (tgo g1 rest) = none := matchIter_none_tgo hmn g1
          have hznl := tgo_leadWs g1 rest hnl
          have hrlen : rest.length ≤ n ∧ rest.length ≤ g1 := by
            have h1 : r.length = b.length + rest.length := by
              rw [hsplit, List.length_append]
            have h2 : 1 ≤ b.length := by
              subst hbt
              simp
            simp only [List.length_cons] at hn hf1
            omega
          by_cases hacc : tableAccept b = true
          · have hsafe := nlRepl_nlSafe_accept hacc
            have hlenw : (nlRepl b).length ≤ f2 := by
              rw [List.length_append] at hf2
              omega
            rw [tgo_walk (nlRepl b) f2 (tgo g1 rest) hsafe hzn hlenw]
            congr 1
            refine ih rest g1 (f2 - (nlRepl b).length) hrlen.1 hrlen.2 ?_
            rw [List.length_append] at hf2
            omega
          · have hnr : nlRepl b = '\n' :: b := by
              unfold nlRepl
              rw [if_neg hacc]
            rw [hnr, List.cons_append] at hf2 ⊢
            obtain ⟨g2, rfl⟩ : ∃ g2, f2 = g2 + 1 := by
              refine ⟨f2 - 1, ?_⟩
              simp only [List.length_cons] at hf2
              omega
            have hbp2 : blockParse (b ++ tgo g1 rest) = some (b, tgo g1 rest) :=
              hrefire _ hznl hzn
            rw [tgo_nl_some g2 hbp2, hnr, List.cons_append]
            congr 2
            refine ih rest g1 g2 hrlen.1 hrlen.2 ?_
            simp only [List.length_cons, List.length_append] at hf2
            omega
      · rw [tgo_cons_ne g1 hc] at hf2 ⊢
        obtain ⟨g2, rfl⟩ : ∃ g2, f2 = g2 + 1 := by
          refine ⟨f2 - 1, ?_⟩
          simp only [List.length_cons] at hf2
          omega
        rw [tgo_cons_ne g2 hc]
        congr 1
        refine ih r g1 g2 ?_ ?_ ?_
        · simp only [List.length_cons] at hn; omega
        · simp only [List.length_cons] at hf1; omega
        · simp only [List.length_cons] at hf2; omega

theorem processBlock_reject {b : Str} (hacc : tableAccept b = false) :
    processBlock b = b := by
  unfold processBlock
  unfold tableAccept at hacc
  dsimp only at hacc
  by_cases hl : (linesOf b).length < 2
  · rw [if_pos hl]
  · rw [if_neg hl]
    cases hIdx : List.findIdx? isSeparatorRow (linesOf b) with
    | none => rfl
    | some k =>
      cases k with
      | zero => rfl
      | succ k2 =>
        exfalso
        rw [hIdx] at hacc
        have h2 : decide (2 ≤ (linesOf b).length) = true := by
          simp only [decide_eq_true_eq]
          omega
        rw [h2] at hacc
        simp at hacc

theorem processBlock_accept_eq {b : Str} (hacc : tableAccept b = true) :
    processBlock b = nlRepl b := by
  unfold nlRepl
  rw [if_pos hacc]

theorem parseMarkdownTablesL_idem (s : Str) :
    parseMarkdownTablesL (parseMarkdownTablesL s) = parseMarkdownTablesL s := by
  unfold parseMarkdownTablesL
  cases hbp : blockParse s with
  | none =>
    have hmn : matchIter s = none := blockParse_none_iff.mp hbp
    have hout : blockParse (tgo (s.length + 1) s) = none :=
      blockParse_none_iff.mpr (matchIter_none_tgo hmn (s.length + 1))
    rw [hout]
    dsimp only
    exact tgoIdem s.length s (s.length + 1) ((tgo (s.length + 1) s).length + 1)
      (Nat.le_refl _) (Nat.le_succ _) (Nat.le_succ _)
  | some p =>
    obtain ⟨b, rest⟩ := p
    obtain ⟨hsplit, ⟨t, hbt⟩, hmn, hnl, hrefire⟩ := blockParse_some_facts hbp
    dsimp only
    have hzn : matchIter (tgo (rest.length + 1) rest) = none :=
      matchIter_none_tgo hmn (rest.length + 1)
    have hznl := tgo_leadWs (rest.length + 1) rest hnl
    have hzidem : ∀ f2, (tgo (rest.length + 1) rest).length ≤ f2 →
        tgo f2 (tgo (rest.length + 1) rest) = tgo (rest.length + 1) rest :=
      fun f2 hf2 => tgoIdem rest.length rest (rest.length + 1) f2
        (Nat.le_refl _) (Nat.le_succ _) hf2
    by_cases hacc : tableAccept b = true
    · rw [processBlock_accept_eq hacc]
      obtain ⟨t2, ht2⟩ := nlRepl_nl b
      have hout : blockParse (nlRepl b ++ tgo (rest.length + 1) rest) = none := by
        rw [ht2, List.cons_append]
        exact blockParse_none_iff.mpr (matchIter_cons_ne (by decide))
      rw [hout]
      dsimp only
      rw [tgo_walk (nlRepl b) ((nlRepl b ++ tgo (rest.length + 1) rest).length + 1)
        (tgo (rest.length + 1) rest) (nlRepl_nlSafe_accept hacc) hzn
        (by simp only [List.length_append]; omega)]
      congr 1
      refine hzidem _ ?_
      simp only [List.length_append]
      omega
    · rw [processBlock_reject (Bool.not_eq_true _ ▸ hacc)]
      have hout : blockParse (b ++ tgo (rest.length + 1) rest) =
          some (b, tgo (rest.length + 1) rest) := hrefire _ hznl hzn
      rw [hout]
      dsimp only
      rw [processBlock_reject (Bool.not_eq_true _ ▸ hacc)]
      congr 1
      refine hzidem _ ?_
      omega

/-- C9: `parseMarkdownTables` is idempotent: running the table pass on its own
output changes nothing, because emitted table markup contains no `|` at all
(so no line of it re-matches the block regex), rejected blocks are re-matched
to the same span and rejected again, and text outside matches is copied
verbatim. -/
theorem C9_tables_idempotent (s : String) :
    parseMarkdownTables (parseMarkdownTables s) = parseMarkdownTables s := by
  unfold parseMarkdownTables
  by_cases hs : s = ""
  · rw [if_pos hs, if_pos rfl]
  · rw [if_neg hs]
    by_cases ho : (parseMarkdownTablesL s.toList).asString = ""
    · rw [if_pos ho, ho]
    · rw [if_neg ho]
      rw [show ((parseMarkdownTablesL s.toList).asString).toList =
        parseMarkdownTablesL s.toList from rfl, parseMarkdownTablesL_idem]

end App
